import Mathlib

/-!
# Verification of the Expressive Code block-processing pipeline

This file gives a shallow embedding of the Expressive Code engine: the block
model with permission-gated mutators, the plugin hook dispatcher, the
plugin-scoped data store, the staged processing pipeline, the line/block
rendering assembly, and the Astro integration's module-level renderer cache.
The engine core is modelled from the specification (its tests and callers are
the sources available here); the renderer cache is translated directly from
its source.
-/

set_option autoImplicit false

namespace ExpressiveCode

/-! ## Character-list string helpers -/

/-- Characters of a string, as a list. -/

def strChars (s : String) : List Char := s.data

/-- Build a string from a character list. -/

def strOfChars (l : List Char) : String := String.mk l

/-- Take the first `n` characters of a string. -/

def strTake (s : String) (n : Nat) : String := strOfChars (s.data.take n)

/-- Drop the first `n` characters of a string. -/

def strDrop (s : String) (n : Nat) : String := strOfChars (s.data.drop n)

/-- The substring of `s` from column `cs` (inclusive) to `ce` (exclusive). -/

def strSlice (s : String) (cs ce : Nat) : String :=
  strOfChars ((s.data.drop cs).take (ce - cs))

/-- Split a character list at newline characters. The result is always
nonempty (an empty input yields one empty line). -/

def splitChars : List Char → List (List Char)
  | [] => [[]]
  | c :: cs =>
    let r := splitChars cs
    if c = '\n' then [] :: r
    else
      match r with
      | [] => [[c]]
      | l :: ls => (c :: l) :: ls

/-- Join lines with newline characters; left inverse of `splitChars`. -/

def joinNl : List (List Char) → List Char
  | [] => []
  | [l] => l
  | l :: ls => l ++ '\n' :: joinNl ls

/-- Split a code string into its lines (at newline characters). -/

def splitLines (code : String) : List String :=
  (splitChars code.data).map strOfChars

/-! ## Render node trees (hast-like markup nodes) -/

/-- A generic markup-tree node: either plain text or a tagged element with
properties and children. Mirrors the hast nodes produced by the engine. -/

inductive HastNode where
  | text (value : String)
  | element (tagName : String) (properties : List (String × String)) (children : List HastNode)

/-- Serialization of one property as ` key="value"`. -/

def propToHtml (p : String × String) : String :=
  " " ++ p.1 ++ "=\x22" ++ p.2 ++ "\x22"

mutual

/-- Serialize a render node to HTML (as `hast-util-to-html` does for the
simple documents in scope here). -/
def HastNode.toHtml : HastNode → String
  | .text v => v
  | .element tag props children =>
    "<" ++ tag ++ String.join (props.map propToHtml) ++ ">" ++ toHtmlList children ++ "</" ++ tag ++ ">"

/-- Serialize a list of render nodes. -/
def toHtmlList : List HastNode → String
  | [] => ""
  | c :: cs => HastNode.toHtml c ++ toHtmlList cs

end

/-! ## Annotations, lines and code blocks -/

/-- Modelled from the spec: an annotation attached to a line carries a `name`,
an optional inline column range, and a render capability: a pure function from
the current partial line render tree to a new render tree, used to wrap or
mark the relevant span or whole line. -/

structure Annot where
  name : String
  inlineRange : Option (Nat × Nat)
  render : HastNode → HastNode

/-- Modelled from the spec: one line of a code block, holding its text and an
ordered list of annotations (insertion order is rendering/nesting order). -/

structure Line where
  text : String
  annots : List Annot

/-- Modelled from the spec: the permission triple attached to a block during
each pipeline stage. -/

structure ProcessingState where
  canEditMetadata : Bool
  canEditCode : Bool
  canEditAnnotations : Bool
deriving DecidableEq, Repr

/-- Modelled from the spec: the mutable representation of one code block: its
lines (carrying the text and annotations; the full `code` text is derived),
`language` and `meta` metadata, and the currently active processing state. -/

structure CodeBlock where
  lines : List Line
  language : String
  meta : String
  state : ProcessingState

/-- Modelled from the spec: the taxonomy of engine errors. -/

inductive EcError where
  | validationError (msg : String)
  | permissionDenied (msg : String)
deriving DecidableEq, Repr

/-- The full code text of a block, derived by joining its lines. -/

def CodeBlock.code (b : CodeBlock) : String :=
  strOfChars (joinNl (b.lines.map (fun l => l.text.data)))

/-- A fresh, annotation-free line with the given text. -/

def mkLine (text : String) : Line := { text := text, annots := [] }

/-- The read-only permission state (all three permissions false). -/

def readonlyState : ProcessingState :=
  { canEditMetadata := false, canEditCode := false, canEditAnnotations := false }

/-- A block freshly created from a data object (code is split into lines; no
annotations yet; state starts read-only until the pipeline opens a stage). -/

def mkCodeBlock (code language meta : String) : CodeBlock :=
  { lines := (splitLines code).map mkLine, language := language, meta := meta, state := readonlyState }

/-- Replace the processing state attached to a block. -/

def withState (b : CodeBlock) (s : ProcessingState) : CodeBlock :=
  { b with state := s }

/-- Insert an element at index `i` of a list (appending when `i` exceeds the
length, as a JS splice does). -/

def insertIdx {α : Type} (l : List α) (i : Nat) (x : α) : List α :=
  l.take i ++ x :: l.drop i

/-- Apply `f` to the element at index `i`, leaving the list unchanged when the
index is out of range. -/

def updateAt {α : Type} : List α → Nat → (α → α) → List α
  | [], _, _ => []
  | x :: xs, 0, f => f x :: xs
  | x :: xs, i + 1, f => x :: updateAt xs i f

/-- Modelled from the spec: the metadata mutator; checks `canEditMetadata`
first and fails with a permission-denied condition when it is false. -/

def CodeBlock.setMeta (b : CodeBlock) (m : String) : Except EcError CodeBlock :=
  if b.state.canEditMetadata then .ok { b with meta := m }
  else .error (.permissionDenied ("Cannot edit metadata of code block"))

/-- Modelled from the spec: the language mutator; gated on `canEditMetadata`. -/

def CodeBlock.setLanguage (b : CodeBlock) (l : String) : Except EcError CodeBlock :=
  if b.state.canEditMetadata then .ok { b with language := l }
  else .error (.permissionDenied ("Cannot edit metadata of code block"))

/-- Modelled from the spec: wholesale code replacement; gated on
`canEditCode`; re-derives the lines from the new code, preserving no prior
annotations. -/

def CodeBlock.setCode (b : CodeBlock) (c : String) : Except EcError CodeBlock :=
  if b.state.canEditCode then .ok { b with lines := (splitLines c).map mkLine }
  else .error (.permissionDenied ("Cannot edit code of code block"))

/-- Modelled from the spec: insert a single line at the given index; gated on
`canEditCode`; annotations on the other lines survive unchanged. -/

def CodeBlock.insertLine (b : CodeBlock) (i : Nat) (text : String) : Except EcError CodeBlock :=
  if b.state.canEditCode then .ok { b with lines := insertIdx b.lines i (mkLine text) }
  else .error (.permissionDenied ("Cannot edit code of code block"))

/-- Modelled from the spec: attach an annotation to the line at the given
index; gated on `canEditAnnotations`; a missing line is a no-op (mirroring the
optional-chaining access used by callers). -/

def CodeBlock.addAnnot (b : CodeBlock) (lineIdx : Nat) (a : Annot) : Except EcError CodeBlock :=
  if b.state.canEditAnnotations then
    .ok { b with lines := updateAt b.lines lineIdx (fun l => { l with annots := l.annots ++ [a] }) }
  else .error (.permissionDenied ("Cannot edit annotations of code block"))

/-! ## Plugin-scoped data store -/

/-- The two lifetimes of plugin-scoped data. -/

inductive Scope where
  | block
  | global
deriving DecidableEq, Repr

/-- The opaque, caller-typed container stored per plugin and scope, modelled
as a record of named integer fields (booleans are 0/1). -/

abbrev PValue := List (String × Int)

/-- A store: entries keyed by plugin identity (registry index). -/

abbrev DataStore := List (Nat × PValue)

/-- Look up the entry of a plugin in a store (newest entry wins). -/

def lookupData : DataStore → Nat → Option PValue
  | [], _ => none
  | (k, v) :: rest, pid => if k = pid then some v else lookupData rest pid

/-- Modelled from the spec: the get-or-insert core of `getPluginData` — the
first access for a plugin stores the supplied default and returns it; later
accesses return the stored value and ignore the default argument. -/

def getOrInit (store : DataStore) (pid : Nat) (dflt : PValue) : PValue × DataStore :=
  match lookupData store pid with
  | some v => (v, store)
  | none => (dflt, (pid, dflt) :: store)

/-- Record a new value for a plugin's container (modelling an in-place
mutation of the shared container in the original). -/

def storeData (store : DataStore) (pid : Nat) (v : PValue) : DataStore :=
  (pid, v) :: store

/-! ## Hook programs and plugins -/

/-- Modelled from the spec: the editing operations a hook can request through
the block model's controlled mutation surface. -/

inductive MutAction where
  | setMeta (m : String)
  | setLanguage (l : String)
  | setCode (c : String)
  | insertLine (idx : Nat) (text : String)
  | addAnnot (lineIdx : Nat) (a : Annot)

/-- Modelled from the spec: a hook implementation, as a program over the
context bundle every hook invocation receives: it can read the current code
block, call `getPluginData` bound to its own plugin identity, mutate the
block through the permission-gated mutators, and read or replace the render
data during the post-processing stages. -/

inductive HookProg where
  | done
  | readBlock (k : CodeBlock → HookProg)
  | getData (scope : Scope) (dflt : PValue) (k : PValue → HookProg)
  | setData (scope : Scope) (v : PValue) (k : HookProg)
  | mutate (act : MutAction) (k : HookProg)
  | getRender (k : HastNode → HookProg)
  | setRender (n : HastNode) (k : HookProg)

/-- The named pipeline stages, in their documented order. -/

inductive HookName where
  | preprocessMetadata
  | preprocessCode
  | performSyntaxAnalysis
  | postprocessAnalyzedCode
  | annotateCode
  | postprocessAnnotations
  | postprocessRenderedLine
  | postprocessRenderedBlock
deriving DecidableEq, Repr

/-- Modelled from the spec: a plugin exposes a name and zero or more named
hook implementations (a stage without an implementation is skipped). -/

structure Plugin where
  name : String
  hooks : HookName → Option HookProg

/-- Modelled from the spec: the permission triple the engine activates for
each stage. -/

def stageState : HookName → ProcessingState
  | .preprocessMetadata =>
    { canEditMetadata := true, canEditCode := false, canEditAnnotations := true }
  | .preprocessCode =>
    { canEditMetadata := true, canEditCode := true, canEditAnnotations := true }
  | .performSyntaxAnalysis =>
    { canEditMetadata := true, canEditCode := true, canEditAnnotations := true }
  | .postprocessAnalyzedCode =>
    { canEditMetadata := true, canEditCode := true, canEditAnnotations := true }
  | .annotateCode =>
    { canEditMetadata := false, canEditCode := false, canEditAnnotations := true }
  | .postprocessAnnotations =>
    { canEditMetadata := false, canEditCode := false, canEditAnnotations := true }
  | .postprocessRenderedLine => readonlyState
  | .postprocessRenderedBlock => readonlyState

/-! ## Rendering assembly -/

/-- Modelled from the spec: render one line by folding its annotations over a
base node wrapping the raw text — each annotation's render capability is
applied in array order, receiving the previous result. -/

def renderLine (l : Line) : HastNode :=
  l.annots.foldl (fun ast a => a.render ast) (HastNode.element ("div") [] [HastNode.text l.text])

/-- Modelled from the spec: wrap the ordered line nodes in a single container
node representing the whole block. -/

def renderBlock (lineAsts : List HastNode) : HastNode :=
  HastNode.element ("pre") [] [HastNode.element ("code") [] lineAsts]

/-! ## The pipeline interpreter -/

/-- One recorded event of a processing run: a hook invocation (with the
processing state the hook observes on the block), a plugin-data read (with
the supplied default and the returned value), or a plugin-data write. -/

inductive TraceEntry where
  | call (pluginIdx : Nat) (hook : HookName) (state : ProcessingState)
  | read (pluginIdx : Nat) (scope : Scope) (dflt : PValue) (value : PValue)
  | wrote (pluginIdx : Nat) (scope : Scope) (value : PValue)
deriving DecidableEq, Repr

/-- The mutable engine state threaded through one block's pipeline pass. -/

structure EngineSt where
  codeBlock : CodeBlock
  blockStore : DataStore
  globalStore : DataStore
  renderData : HastNode

/-- Modelled from the spec: `getPluginData`, bound to a plugin identity and a
scope; returns the stored container, storing the supplied default first when
no container exists yet in the scope's lifetime window. -/

def getPluginData (pid : Nat) (scope : Scope) (dflt : PValue) (st : EngineSt) : PValue × EngineSt :=
  match scope with
  | .block =>
    let p := getOrInit st.blockStore pid dflt
    (p.1, { st with blockStore := p.2 })
  | .global =>
    let p := getOrInit st.globalStore pid dflt
    (p.1, { st with globalStore := p.2 })

/-- Record a mutation of a plugin's scoped container. -/

def setPluginData (pid : Nat) (scope : Scope) (v : PValue) (st : EngineSt) : EngineSt :=
  match scope with
  | .block => { st with blockStore := storeData st.blockStore pid v }
  | .global => { st with globalStore := storeData st.globalStore pid v }

/-- Dispatch one block-model mutation request. -/

def applyMut (b : CodeBlock) : MutAction → Except EcError CodeBlock
  | .setMeta m => b.setMeta m
  | .setLanguage l => b.setLanguage l
  | .setCode c => b.setCode c
  | .insertLine i t => b.insertLine i t
  | .addAnnot i a => b.addAnnot i a

/-- Modelled from the spec: run one hook program for the plugin with registry
index `pid`, threading the engine state and recording data accesses; a failed
mutation aborts the hook with its error. -/

def runHook (pid : Nat) : HookProg → EngineSt → Except EcError EngineSt × List TraceEntry
  | .done, st => (.ok st, [])
  | .readBlock k, st => runHook pid (k st.codeBlock) st
  | .getData scope dflt k, st =>
    let p := getPluginData pid scope dflt st
    let r := runHook pid (k p.1) p.2
    (r.1, .read pid scope dflt p.1 :: r.2)
  | .setData scope v k, st =>
    let r := runHook pid k (setPluginData pid scope v st)
    (r.1, .wrote pid scope v :: r.2)
  | .mutate act k, st =>
    match applyMut st.codeBlock act with
    | .ok b => runHook pid k { st with codeBlock := b }
    | .error e => (.error e, [])
  | .getRender k, st => runHook pid (k st.renderData) st
  | .setRender n k, st => runHook pid k { st with renderData := n }

/-- Modelled from the spec: invoke, in registration order, every plugin's
implementation of the given stage hook (skipping plugins without one),
recording a call entry (with the state the hook observes) per invocation;
plugin `j` of the list gets registry index `i + j`. -/

def runHooksAt (h : HookName) (i : Nat) (st : EngineSt) : List Plugin → Except EcError EngineSt × List TraceEntry
  | [] => (.ok st, [])
  | p :: ps =>
    match p.hooks h with
    | none => runHooksAt h (i + 1) st ps
    | some prog =>
      let r := runHook i prog st
      match r.1 with
      | .ok st' =>
        let rest := runHooksAt h (i + 1) st' ps
        (rest.1, .call i h st.codeBlock.state :: (r.2 ++ rest.2))
      | .error e => (.error e, .call i h st.codeBlock.state :: r.2)

/-- Modelled from the spec: run one block-level stage: the engine first
attaches the stage's documented permission state to the block, then invokes
the plugins' hooks in registration order. -/

def runBlockStage (h : HookName) (plugins : List Plugin) (st : EngineSt) :
    Except EcError EngineSt × List TraceEntry :=
  runHooksAt h 0 { st with codeBlock := withState st.codeBlock (stageState h) } plugins

/-- The six block-level stages that precede rendering, in order. -/

def stageOrder : List HookName :=
  [.preprocessMetadata, .preprocessCode, .performSyntaxAnalysis, .postprocessAnalyzedCode,
   .annotateCode, .postprocessAnnotations]

/-- Run a sequence of block-level stages, stopping at the first error. -/

def runStages (plugins : List Plugin) : List HookName → EngineSt → Except EcError EngineSt × List TraceEntry
  | [], st => (.ok st, [])
  | h :: hs, st =>
    let r := runBlockStage h plugins st
    match r.1 with
    | .error e => (.error e, r.2)
    | .ok st' =>
      let r2 := runStages plugins hs st'
      (r2.1, r.2 ++ r2.2)

/-- Modelled from the spec: for each line, render it from its annotations,
then run every plugin's `postprocessRenderedLine` hook on the line's render
data; the (possibly replaced) line nodes are collected in order. -/

def runLineLoop (plugins : List Plugin) : List Line → EngineSt →
    Except EcError (EngineSt × List HastNode) × List TraceEntry
  | [], st => (.ok (st, []), [])
  | l :: ls, st =>
    let r := runHooksAt .postprocessRenderedLine 0 { st with renderData := renderLine l } plugins
    match r.1 with
    | .error e => (.error e, r.2)
    | .ok st' =>
      let r2 := runLineLoop plugins ls st'
      match r2.1 with
      | .error e => (.error e, r.2 ++ r2.2)
      | .ok (st'', asts) => (.ok (st'', st'.renderData :: asts), r.2 ++ r2.2)

/-- The engine state at the start of one block's pipeline pass: the
block-scoped data store is created empty for the block, while the global
store is supplied by the caller. -/

def initSt (gs : DataStore) (b : CodeBlock) : EngineSt :=
  { codeBlock := b, blockStore := [], globalStore := gs, renderData := HastNode.text ("") }

/-- The engine state entering the per-line post-processing phase: the block
is put into the read-only state documented for `postprocessRenderedLine`. -/

def lineSt (st : EngineSt) : EngineSt :=
  { st with codeBlock := withState st.codeBlock (stageState .postprocessRenderedLine) }

/-- The engine state entering the block post-processing stage: the assembled
block container becomes the render data and the block stays read-only. -/

def blockSt (st : EngineSt) (lineAsts : List HastNode) : EngineSt :=
  { st with
    codeBlock := withState st.codeBlock (stageState .postprocessRenderedBlock),
    renderData := renderBlock lineAsts }

/-- Modelled from the spec: process one block: run the six block-level stages
in order, render each line and post-process it per line in the read-only
state, assemble the block container, and post-process it per block; the
block-scoped data store is created empty for the block, while the global
store is threaded through from the caller. -/

def processBlock (plugins : List Plugin) (gs : DataStore) (b : CodeBlock) :
    Except EcError (CodeBlock × HastNode × DataStore) × List TraceEntry :=
  let r1 := runStages plugins stageOrder (initSt gs b)
  match r1.1 with
  | .error e => (.error e, r1.2)
  | .ok st1 =>
    let r2 := runLineLoop plugins (lineSt st1).codeBlock.lines (lineSt st1)
    match r2.1 with
    | .error e => (.error e, r1.2 ++ r2.2)
    | .ok (st2, lineAsts) =>
      let r3 := runHooksAt .postprocessRenderedBlock 0 (blockSt st2 lineAsts) plugins
      match r3.1 with
      | .error e => (.error e, r1.2 ++ r2.2 ++ r3.2)
      | .ok st4 => (.ok (st4.codeBlock, st4.renderData, st4.globalStore), r1.2 ++ r2.2 ++ r3.2)

/-! ## Input validation and the engine entry operation -/

/-- A JavaScript-like value supplied to the entry operation: primitives,
arrays, plain objects, or an existing block instance. -/

inductive JsValue where
  | nullVal
  | undef
  | num (n : Int)
  | str (s : String)
  | boolVal (b : Bool)
  | arr (xs : List JsValue)
  | obj (fields : List (String × JsValue))
  | blockInstance (b : CodeBlock)

/-- Look up a required string field of a data object. -/

def strField : List (String × JsValue) → String → Option String
  | [], _ => none
  | (k, v) :: rest, key =>
    if k = key then
      match v with
      | .str s => some s
      | _ => none
    else strField rest key

/-- Modelled from the spec: a single valid entry is either an existing block
instance or a data object carrying the required `code`, `language` and `meta`
string fields. -/

def validEntry : JsValue → Option CodeBlock
  | .blockInstance b => some b
  | .obj fs =>
    match strField fs ("code"), strField fs ("language"), strField fs ("meta") with
    | some c, some l, some m => some (mkCodeBlock c l m)
    | _, _, _ => none
  | _ => none

/-- Validate each entry of a sequence, failing on the first invalid one. -/

def validateEntries : List JsValue → Except EcError (List CodeBlock)
  | [] => .ok []
  | x :: xs =>
    match validEntry x with
    | none => .error (.validationError ("Invalid entry in input array"))
    | some b =>
      match validateEntries xs with
      | .error e => .error e
      | .ok bs => .ok (b :: bs)

/-- Modelled from the spec: validate the input of the entry operation — a
single block instance, a single data object, or an ordered sequence of
either; anything else (non-sequence, non-object, or an object missing a
required field) fails validation before any block enters the pipeline. -/

def validateInput : JsValue → Except EcError (List CodeBlock)
  | .arr xs => validateEntries xs
  | v =>
    match validEntry v with
    | some b => .ok [b]
    | none => .error (.validationError ("Invalid input"))

/-- Modelled from the spec: the engine instance: it owns the ordered plugin
registry and the global-scope data store, both reused across repeated
`process()` invocations on the same instance. -/

structure Engine where
  plugins : List Plugin
  globalStore : DataStore

/-- Process a validated list of blocks strictly sequentially, threading the
global store; the first failing block aborts the call. -/

def processBlocks (plugins : List Plugin) (gs : DataStore) :
    List CodeBlock → Except EcError (List (CodeBlock × HastNode)) × DataStore × List TraceEntry
  | [] => (.ok [], gs, [])
  | b :: bs =>
    let r := processBlock plugins gs b
    match r.1 with
    | .error e => (.error e, gs, r.2)
    | .ok (b', ast, gs') =>
      let rest := processBlocks plugins gs' bs
      match rest.1 with
      | .error e => (.error e, rest.2.1, r.2 ++ rest.2.2)
      | .ok results => (.ok ((b', ast) :: results), rest.2.1, r.2 ++ rest.2.2)

/-- Modelled from the spec: the entry operation: validate the input (before
touching any plugin), then process the resulting blocks sequentially; the
returned engine carries the updated global store, and the trace records every
hook invocation and plugin-data access of the call. -/

def Engine.process (e : Engine) (input : JsValue) :
    Except EcError (List (CodeBlock × HastNode)) × Engine × List TraceEntry :=
  match validateInput input with
  | .error err => (.error err, e, [])
  | .ok blocks =>
    let r := processBlocks e.plugins e.globalStore blocks
    (r.1, { e with globalStore := r.2.1 }, r.2.2)

/-! ## Trace observations -/

/-- Count the `call` entries of a given plugin index and hook name. -/

def countCalls (i : Nat) (h : HookName) (tr : List TraceEntry) : Nat :=
  tr.countP (fun entry =>
    match entry with
    | .call j h' _ => decide (j = i) && decide (h' = h)
    | _ => false)

/-- Whether a trace entry is a data access (read or write) of the given
plugin at the given scope. -/

def isAccess (pid : Nat) (scope : Scope) : TraceEntry → Bool
  | .read p s _ _ => decide (p = pid) && decide (s = scope)
  | .wrote p s _ => decide (p = pid) && decide (s = scope)
  | .call _ _ _ => false

/-- The first data access of the given plugin at the given scope in a trace. -/

def firstAccess (pid : Nat) (scope : Scope) (tr : List TraceEntry) : Option TraceEntry :=
  tr.find? (isAccess pid scope)

/-- Whether an `Except` result is a success. -/

def isOkResult {α : Type} (r : Except EcError α) : Bool :=
  match r with
  | .ok _ => true
  | .error _ => false

/-! ## The Astro integration's module-level renderer cache

This part is translated from the source of `getRenderer`: a module-level
variable caches the pending `createRenderer()` result; the first call stores
it (synchronously, before awaiting), and every call returns the cached
renderer. Renderers are identified by their creation index, so distinct
creations would be distinguishable. -/

/-- The module-level state of the renderer cache: the cached renderer (if
any) and the number of `createRenderer()` invocations so far. -/

structure RendererModuleState where
  cachedRenderer : Option Nat
  createCount : Nat
deriving DecidableEq, Repr

/-- The initial module state: nothing cached, nothing created. -/

def initialRendererState : RendererModuleState :=
  { cachedRenderer := none, createCount := 0 }

/-- One call of `getRenderer`: when the cache is empty, `createRenderer()` is
invoked and its (pending) result is stored in the cache before being
returned; otherwise the cached renderer is returned unchanged. -/

def getRenderer : RendererModuleState → Nat × RendererModuleState
  | { cachedRenderer := some r, createCount := c } => (r, { cachedRenderer := some r, createCount := c })
  | { cachedRenderer := none, createCount := c } => (c, { cachedRenderer := some c, createCount := c + 1 })

/-- Run `n` successive `getRenderer` calls, collecting the returned
renderers. -/

def runGetRenderer : Nat → RendererModuleState → List Nat × RendererModuleState
  | 0, s => ([], s)
  | n + 1, s =>
    let p := getRenderer s
    let rest := runGetRenderer n p.2
    (p.1 :: rest.1, rest.2)

/-! ## Concrete fixtures used by claim witnesses -/

/-- The two-line test input block used throughout the test suite. -/

def twoLineBlock : CodeBlock :=
  mkCodeBlock ("Example code...\n...with two lines!") ("md") ("test")

/-- A plugin implementing a single trivial `annotateCode` hook. -/

def annotatePlugin : Plugin :=
  { name := "TestPlugin", hooks := fun h =>
      match h with
      | .annotateCode => some .done
      | _ => none }

/-- A plugin implementing trivial `preprocessCode` and
`postprocessRenderedLine` hooks. -/

def lineCountPlugin : Plugin :=
  { name := "TestPlugin", hooks := fun h =>
      match h with
      | .preprocessCode => some .done
      | .postprocessRenderedLine => some .done
      | _ => none }

/-- The block component of a successful per-block result (with a fallback for
the error case). -/

def okBlock (r : Except EcError (CodeBlock × HastNode × DataStore)) (dflt : CodeBlock) : CodeBlock :=
  match r with
  | .ok (b, _, _) => b
  | .error _ => dflt

/-- The render-tree component of a successful per-block result. -/

def okAst (r : Except EcError (CodeBlock × HastNode × DataStore)) : HastNode :=
  match r with
  | .ok (_, ast, _) => ast
  | .error _ => HastNode.text ("")

/-- The global-store component of a successful per-block result. -/

def okGs (r : Except EcError (CodeBlock × HastNode × DataStore)) : DataStore :=
  match r with
  | .ok (_, _, gs) => gs
  | .error _ => []

/-- Look up a plugin's container in the store of the given scope. -/

def lookupScoped (scope : Scope) (st : EngineSt) (pid : Nat) : Option PValue :=
  match scope with
  | .block => lookupData st.blockStore pid
  | .global => lookupData st.globalStore pid

/-- The deletion-style annotation of the rendering test: wraps columns 8-12
of the line (the substring "two ") in a `del` element. -/

def delAnnot : Annot :=
  { name := "del", inlineRange := some (8, 12), render := fun n =>
      match n with
      | .element t p [.text sv] =>
        .element t p [.text (strTake sv 8), .element ("del") [] [.text (strSlice sv 8 12)],
          .text (strDrop sv 12)]
      | other => .element ("del") [] [other] }

/-- A plugin whose `annotateCode` hook attaches `delAnnot` to line 1. -/

def delPlugin : Plugin :=
  { name := "TestPlugin", hooks := fun h =>
      match h with
      | .annotateCode => some (.mutate (.addAnnot 1 delAnnot) .done)
      | _ => none }

/-! ## Claim C8 -/

/-- Apply a list of render transformations in order, each receiving the
previous result. -/

def foldApp (fs : List (HastNode → HastNode)) (n : HastNode) : HastNode :=
  fs.foldl (fun a f => f a) n

/-- A plugin whose hook for the given post-processing stage reads the current
render data and replaces it with `f` applied to it. -/

def mapRenderPlugin (h0 : HookName) (f : HastNode → HastNode) : Plugin :=
  { name := "RenderPlugin", hooks := fun h =>
      if h = h0 then some (.getRender (fun n => .setRender (f n) .done)) else none }

/-- The render tree of a successful per-block result. -/

def blockAstOf (r : Except EcError (CodeBlock × HastNode × DataStore)) : Option HastNode :=
  match r with
  | .ok (_, ast, _) => some ast
  | .error _ => none

/-- Sequential fold of the block-level stages over the engine state (each
stage only re-stamps the block's permission state when no hook runs). -/

def applyStages (hs : List HookName) (st : EngineSt) : EngineSt :=
  hs.foldl (fun s h => { s with codeBlock := withState s.codeBlock (stageState h) }) st

/-! ## Claims C6 and C7 -/

/-- Integer field of a plugin-data container, with a default. -/

def pgetD (v : PValue) (k : String) (dflt : Int) : Int :=
  match v with
  | [] => dflt
  | (k2, x) :: rest => if k2 = k then x else pgetD rest k dflt

/-- A plugin counting processed blocks in its global-scoped data. -/

def counterPlugin : Plugin :=
  { name := "TestPlugin", hooks := fun h =>
      match h with
      | .preprocessMetadata => some (.getData .global [("processedBlocks", 0)]
          (fun pv => .setData .global
            [("processedBlocks", pgetD pv ("processedBlocks") 0 + 1)] .done))
      | _ => none }

/-- A plugin reading its block-scoped data once per block. -/

def blockProbePlugin : Plugin :=
  { name := "TestPlugin", hooks := fun h =>
      match h with
      | .preprocessMetadata => some (.getData .block [("c", 0)] (fun _ => .done))
      | _ => none }

/-- A plugin that initializes and then overwrites its block- and
global-scoped containers during `preprocessMetadata`. -/

def writerPlugin : Plugin :=
  { name := "TestPlugin", hooks := fun h =>
      match h with
      | .preprocessMetadata => some (.getData .block [("justInitialized", 1)]
          (fun _ => .setData .block [("justInitialized", 0)]
            (.getData .global [("justInitialized", 1)]
              (fun _ => .setData .global [("justInitialized", 0)] .done))))
      | _ => none }

/-- A second plugin with the same declared name, reading its own block-scoped
data in a later stage. -/

def readerPlugin : Plugin :=
  { name := "TestPlugin", hooks := fun h =>
      match h with
      | .annotateCode => some (.getData .block [("justInitialized", 1)] (fun _ => .done))
      | _ => none }

/-- An engine owning the counter plugin and a fresh global store. -/

def counterEngine : Engine := { plugins := [counterPlugin], globalStore := [] }

/-- A one-line data-object input. -/

def oneLineInput : JsValue :=
  .obj [("code", .str ("Example code")), ("language", .str ("md")), ("meta", .str ("test"))]

/-- The payload of a successful `process()` result. -/

def okResults (r : Except EcError (List (CodeBlock × HastNode))) :
    List (CodeBlock × HastNode) :=
  match r with
  | .ok rs => rs
  | .error _ => []

/-! ## Theorems -/

theorem splitChars_ne_nil (cs : List Char) : splitChars cs ≠ [] := by
  induction cs with
  | nil => simp [splitChars]
  | cons c cs ih =>
    simp only [splitChars]
    by_cases h : c = '\n'
    · simp [h]
    · simp only [h, if_false]
      match hr : splitChars cs with
      | [] => simp
      | l :: ls => simp

theorem joinNl_splitChars (cs : List Char) : joinNl (splitChars cs) = cs := by
  induction cs with
  | nil => simp [splitChars, joinNl]
  | cons c cs ih =>
    simp only [splitChars]
    by_cases h : c = '\n'
    · subst h
      match hr : splitChars cs with
      | [] => exact absurd hr (splitChars_ne_nil cs)
      | l :: ls =>
        rw [hr] at ih
        simp [joinNl]
        match ls with
        | [] => simpa [joinNl] using ih
        | l' :: ls' => simpa [joinNl] using ih
    · simp only [h, if_false]
      match hr : splitChars cs with
      | [] => exact absurd hr (splitChars_ne_nil cs)
      | l :: ls =>
        rw [hr] at ih
        match ls with
        | [] => simpa [joinNl] using ih
        | l' :: ls' => simpa [joinNl] using ih

/-! ## Preservation lemmas about the interpreter -/

theorem applyMut_state (b : CodeBlock) (act : MutAction) (b' : CodeBlock)
    (h : applyMut b act = .ok b') : b'.state = b.state := by
  cases act <;>
    simp only [applyMut, CodeBlock.setMeta, CodeBlock.setLanguage, CodeBlock.setCode,
      CodeBlock.insertLine, CodeBlock.addAnnot] at h <;>
    split at h <;> simp_all <;> subst h <;> rfl

theorem applyMut_readonly (b : CodeBlock) (act : MutAction) (b' : CodeBlock)
    (hs : b.state = readonlyState) : applyMut b act ≠ .ok b' := by
  cases act <;>
    simp [applyMut, CodeBlock.setMeta, CodeBlock.setLanguage, CodeBlock.setCode,
      CodeBlock.insertLine, CodeBlock.addAnnot, hs, readonlyState]

theorem getPluginData_codeBlock (pid : Nat) (scope : Scope) (dflt : PValue) (st : EngineSt) :
    (getPluginData pid scope dflt st).2.codeBlock = st.codeBlock := by
  cases scope <;> rfl

theorem setPluginData_codeBlock (pid : Nat) (scope : Scope) (v : PValue) (st : EngineSt) :
    (setPluginData pid scope v st).codeBlock = st.codeBlock := by
  cases scope <;> rfl

theorem runHook_state (pid : Nat) (prog : HookProg) (st st' : EngineSt)
    (h : (runHook pid prog st).1 = .ok st') : st'.codeBlock.state = st.codeBlock.state := by
  induction prog generalizing st with
  | done => simp only [runHook] at h; cases h; rfl
  | readBlock k ih => exact ih _ _ h
  | getData scope dflt k ih =>
    simp only [runHook] at h
    rw [ih _ _ h, getPluginData_codeBlock]
  | setData scope v k ih =>
    simp only [runHook] at h
    rw [ih _ h, setPluginData_codeBlock]
  | mutate act k ih =>
    simp only [runHook] at h
    split at h
    next b hb =>
      rw [ih _ h]
      exact applyMut_state _ _ _ hb
    next => simp at h
  | getRender k ih => exact ih _ _ h
  | setRender n k ih =>
    simp only [runHook] at h
    exact ih { st with renderData := n } h

theorem runHook_readonly (pid : Nat) (prog : HookProg) (st st' : EngineSt)
    (hs : st.codeBlock.state = readonlyState)
    (h : (runHook pid prog st).1 = .ok st') : st'.codeBlock = st.codeBlock := by
  induction prog generalizing st with
  | done => simp only [runHook] at h; cases h; rfl
  | readBlock k ih => exact ih _ _ hs h
  | getData scope dflt k ih =>
    simp only [runHook] at h
    rw [ih _ _ (by rw [getPluginData_codeBlock]; exact hs) h, getPluginData_codeBlock]
  | setData scope v k ih =>
    simp only [runHook] at h
    rw [ih _ (by rw [setPluginData_codeBlock]; exact hs) h, setPluginData_codeBlock]
  | mutate act k ih =>
    simp only [runHook] at h
    split at h
    next b hb => exact absurd hb (applyMut_readonly _ _ _ hs)
    next => simp at h
  | getRender k ih => exact ih _ _ hs h
  | setRender n k ih =>
    simp only [runHook] at h
    exact ih { st with renderData := n } hs h

theorem runHook_no_call (pid : Nat) (prog : HookProg) (st : EngineSt)
    (j : Nat) (h' : HookName) (s : ProcessingState) :
    TraceEntry.call j h' s ∉ (runHook pid prog st).2 := by
  induction prog generalizing st with
  | done => simp [runHook]
  | readBlock k ih => exact ih _ _
  | getData scope dflt k ih =>
    simp only [runHook, List.mem_cons]
    rintro (hc | hc)
    · exact TraceEntry.noConfusion hc
    · exact ih _ _ hc
  | setData scope v k ih =>
    simp only [runHook, List.mem_cons]
    rintro (hc | hc)
    · exact TraceEntry.noConfusion hc
    · exact ih _ hc
  | mutate act k ih =>
    simp only [runHook]
    split
    · exact ih _
    · simp
  | getRender k ih => exact ih _ _
  | setRender n k ih => exact ih _

theorem countCalls_nil (i : Nat) (h : HookName) : countCalls i h [] = 0 := rfl

theorem countCalls_append (i : Nat) (h : HookName) (t1 t2 : List TraceEntry) :
    countCalls i h (t1 ++ t2) = countCalls i h t1 + countCalls i h t2 := by
  simp [countCalls, List.countP_append]

theorem countCalls_runHook (pid : Nat) (prog : HookProg) (st : EngineSt) (i : Nat) (h : HookName) :
    countCalls i h (runHook pid prog st).2 = 0 := by
  rw [countCalls, List.countP_eq_zero]
  intro a ha
  match a with
  | .call j h' s => exact absurd ha (runHook_no_call pid prog st j h' s)
  | .read _ _ _ _ => simp
  | .wrote _ _ _ => simp

theorem runHooksAt_state (h : HookName) (i : Nat) (st : EngineSt) (ps : List Plugin)
    (st' : EngineSt) (hok : (runHooksAt h i st ps).1 = .ok st') :
    st'.codeBlock.state = st.codeBlock.state := by
  induction ps generalizing i st with
  | nil => simp only [runHooksAt] at hok; cases hok; rfl
  | cons p ps ih =>
    simp only [runHooksAt] at hok
    split at hok
    · exact ih _ _ hok
    · split at hok
      next st1 hr =>
        rw [ih _ _ hok]
        exact runHook_state _ _ _ _ hr
      next => simp at hok

theorem runHooksAt_readonly (h : HookName) (i : Nat) (st : EngineSt) (ps : List Plugin)
    (st' : EngineSt) (hs : st.codeBlock.state = readonlyState)
    (hok : (runHooksAt h i st ps).1 = .ok st') :
    st'.codeBlock = st.codeBlock := by
  induction ps generalizing i st with
  | nil => simp only [runHooksAt] at hok; cases hok; rfl
  | cons p ps ih =>
    simp only [runHooksAt] at hok
    split at hok
    · exact ih _ _ hs hok
    · split at hok
      next st1 hr =>
        have h1 : st1.codeBlock = st.codeBlock := runHook_readonly _ _ _ _ hs hr
        rw [ih _ _ (by rw [h1]; exact hs) hok, h1]
      next => simp at hok

theorem runHooksAt_call_entries (h : HookName) (i : Nat) (st : EngineSt) (ps : List Plugin)
    (j : Nat) (h' : HookName) (s : ProcessingState)
    (hmem : TraceEntry.call j h' s ∈ (runHooksAt h i st ps).2) :
    h' = h ∧ s = st.codeBlock.state ∧ i ≤ j := by
  induction ps generalizing i st with
  | nil => simp [runHooksAt] at hmem
  | cons p ps ih =>
    simp only [runHooksAt] at hmem
    split at hmem
    · have := ih (i + 1) st hmem
      exact ⟨this.1, this.2.1, Nat.le_of_succ_le this.2.2⟩
    · next prog hp =>
      split at hmem
      next st1 hr =>
        simp only [List.mem_cons, List.mem_append] at hmem
        rcases hmem with hmem | hmem | hmem
        · cases hmem
          exact ⟨rfl, rfl, Nat.le_refl _⟩
        · exact absurd hmem (runHook_no_call _ _ _ _ _ _)
        · have := ih (i + 1) st1 hmem
          refine ⟨this.1, ?_, Nat.le_of_succ_le this.2.2⟩
          rw [this.2.1]
          exact runHook_state _ _ _ _ hr
      next =>
        simp only [List.mem_cons] at hmem
        rcases hmem with hmem | hmem
        · cases hmem
          exact ⟨rfl, rfl, Nat.le_refl _⟩
        · exact absurd hmem (runHook_no_call _ _ _ _ _ _)

theorem countCalls_lt (i : Nat) (h h' : HookName) (st : EngineSt) (ps : List Plugin)
    (j : Nat) (hj : j < i) : countCalls j h' (runHooksAt h i st ps).2 = 0 := by
  rw [countCalls, List.countP_eq_zero]
  intro a ha
  match a with
  | .call j' h'' s =>
    have := (runHooksAt_call_entries h i st ps j' h'' s ha).2.2
    simp only [Bool.and_eq_true, decide_eq_true_eq]
    rintro ⟨rfl, rfl⟩
    exact absurd (Nat.lt_of_lt_of_le hj this) (Nat.lt_irrefl _)
  | .read _ _ _ _ => simp
  | .wrote _ _ _ => simp

theorem countCalls_other (i : Nat) (h h' : HookName) (st : EngineSt) (ps : List Plugin)
    (j : Nat) (hne : h' ≠ h) : countCalls j h' (runHooksAt h i st ps).2 = 0 := by
  rw [countCalls, List.countP_eq_zero]
  intro a ha
  match a with
  | .call j' h'' s =>
    have := (runHooksAt_call_entries h i st ps j' h'' s ha).1
    simp only [Bool.and_eq_true, decide_eq_true_eq]
    rintro ⟨rfl, rfl⟩
    exact hne this
  | .read _ _ _ _ => simp
  | .wrote _ _ _ => simp

theorem countCalls_cons_call (i : Nat) (h : HookName) (j : Nat) (h' : HookName)
    (s : ProcessingState) (tr : List TraceEntry) :
    countCalls i h (.call j h' s :: tr) =
      countCalls i h tr + (if j = i ∧ h' = h then 1 else 0) := by
  simp only [countCalls, List.countP_cons]
  congr 1
  by_cases h1 : j = i <;> by_cases h2 : h' = h <;> simp [h1, h2]

theorem countCalls_cons_read (i : Nat) (h : HookName) (p : Nat) (sc : Scope)
    (d v : PValue) (tr : List TraceEntry) :
    countCalls i h (.read p sc d v :: tr) = countCalls i h tr := by
  simp [countCalls, List.countP_cons]

theorem countCalls_cons_wrote (i : Nat) (h : HookName) (p : Nat) (sc : Scope)
    (v : PValue) (tr : List TraceEntry) :
    countCalls i h (.wrote p sc v :: tr) = countCalls i h tr := by
  simp [countCalls, List.countP_cons]

theorem runHooksAt_count (h : HookName) (i : Nat) (st : EngineSt) (ps : List Plugin)
    (st' : EngineSt) (hok : (runHooksAt h i st ps).1 = .ok st') (j : Nat) :
    countCalls (i + j) h (runHooksAt h i st ps).2 =
      (match ps[j]? with
       | some p => if (p.hooks h).isSome then 1 else 0
       | none => 0) := by
  induction ps generalizing i st j with
  | nil => simp [runHooksAt, countCalls]
  | cons p ps ih =>
    simp only [runHooksAt] at hok ⊢
    split at hok
    · next hp =>
      match j with
      | 0 =>
        rw [Nat.add_zero]
        rw [countCalls_lt (i + 1) h h st ps i (Nat.lt_succ_self i)]
        simp [hp]
      | j + 1 =>
        have harith : i + (j + 1) = (i + 1) + j := by omega
        rw [harith, ih (i + 1) st hok j]
        simp
    · next prog hp =>
      split at hok
      next st1 hr =>
        simp only
        match j with
        | 0 =>
          rw [Nat.add_zero, countCalls_cons_call, countCalls_append, countCalls_runHook,
            countCalls_lt (i + 1) h h st1 ps i (Nat.lt_succ_self i)]
          simp [hp]
        | j + 1 =>
          rw [countCalls_cons_call, countCalls_append, countCalls_runHook]
          have harith : i + (j + 1) = (i + 1) + j := by omega
          rw [harith, ih (i + 1) st1 hok j]
          have hne : ¬(i = i + 1 + j ∧ h = h) := by
            rintro ⟨he, -⟩
            omega
          rw [if_neg hne]
          simp
      next => simp at hok

theorem runBlockStage_call_entries (h : HookName) (plugins : List Plugin) (st : EngineSt)
    (j : Nat) (h' : HookName) (s : ProcessingState)
    (hmem : TraceEntry.call j h' s ∈ (runBlockStage h plugins st).2) :
    h' = h ∧ s = stageState h := by
  have := runHooksAt_call_entries h 0
    { st with codeBlock := withState st.codeBlock (stageState h) } plugins j h' s hmem
  exact ⟨this.1, this.2.1⟩

theorem runBlockStage_state (h : HookName) (plugins : List Plugin) (st st' : EngineSt)
    (hok : (runBlockStage h plugins st).1 = .ok st') :
    st'.codeBlock.state = stageState h := by
  have := runHooksAt_state h 0
    { st with codeBlock := withState st.codeBlock (stageState h) } plugins st' hok
  simpa [withState] using this

theorem runBlockStage_count (h : HookName) (plugins : List Plugin) (st st' : EngineSt)
    (hok : (runBlockStage h plugins st).1 = .ok st') (j : Nat) :
    countCalls j h (runBlockStage h plugins st).2 =
      (match plugins[j]? with
       | some p => if (p.hooks h).isSome then 1 else 0
       | none => 0) := by
  have := runHooksAt_count h 0
    { st with codeBlock := withState st.codeBlock (stageState h) } plugins st' hok j
  simpa using this

theorem runBlockStage_count_other (h h' : HookName) (plugins : List Plugin) (st : EngineSt)
    (j : Nat) (hne : h' ≠ h) :
    countCalls j h' (runBlockStage h plugins st).2 = 0 :=
  countCalls_other 0 h h' _ plugins j hne

theorem runStages_call_entries (plugins : List Plugin) (hs : List HookName) (st : EngineSt)
    (j : Nat) (h' : HookName) (s : ProcessingState)
    (hmem : TraceEntry.call j h' s ∈ (runStages plugins hs st).2) :
    s = stageState h' := by
  induction hs generalizing st with
  | nil => simp [runStages] at hmem
  | cons h hs ih =>
    simp only [runStages] at hmem
    split at hmem
    · have := runBlockStage_call_entries h plugins st j h' s hmem
      rw [this.2, this.1]
    · next st1 hr =>
      simp only [List.mem_append] at hmem
      rcases hmem with hmem | hmem
      · have := runBlockStage_call_entries h plugins st j h' s hmem
        rw [this.2, this.1]
      · exact ih st1 hmem

theorem runStages_count (plugins : List Plugin) (hs : List HookName) (st st' : EngineSt)
    (hok : (runStages plugins hs st).1 = .ok st') (j : Nat) (p : Plugin)
    (hp : plugins[j]? = some p) (h : HookName) :
    countCalls j h (runStages plugins hs st).2 =
      hs.count h * (if (p.hooks h).isSome then 1 else 0) := by
  induction hs generalizing st with
  | nil => simp [runStages, countCalls]
  | cons h0 hs ih =>
    simp only [runStages] at hok ⊢
    split at hok
    · simp at hok
    · next st1 hr =>
      rw [countCalls_append]
      by_cases he : h = h0
      · subst he
        rw [runBlockStage_count h plugins st st1 hr j, hp, ih st1 hok]
        rw [List.count_cons_self]
        ring
      · rw [runBlockStage_count_other h0 h plugins st j he, ih st1 hok]
        rw [List.count_cons_of_ne he]
        ring

theorem runLineLoop_call_entries (plugins : List Plugin) (ls : List Line) (st : EngineSt)
    (j : Nat) (h' : HookName) (s : ProcessingState)
    (hmem : TraceEntry.call j h' s ∈ (runLineLoop plugins ls st).2) :
    h' = .postprocessRenderedLine ∧ s = st.codeBlock.state := by
  induction ls generalizing st with
  | nil => simp [runLineLoop] at hmem
  | cons l ls ih =>
    simp only [runLineLoop] at hmem
    split at hmem
    · next e hr =>
      have := runHooksAt_call_entries _ 0 { st with renderData := renderLine l } plugins j h' s hmem
      exact ⟨this.1, this.2.1⟩
    · next st1 hr =>
      have hfirst : TraceEntry.call j h' s ∈
          (runHooksAt .postprocessRenderedLine 0 { st with renderData := renderLine l } plugins).2 →
          h' = .postprocessRenderedLine ∧ s = st.codeBlock.state := by
        intro hm
        have := runHooksAt_call_entries _ 0 { st with renderData := renderLine l } plugins j h' s hm
        exact ⟨this.1, this.2.1⟩
      have hrest : TraceEntry.call j h' s ∈ (runLineLoop plugins ls st1).2 →
          h' = .postprocessRenderedLine ∧ s = st.codeBlock.state := by
        intro hm
        have hstate : st1.codeBlock.state = st.codeBlock.state :=
          runHooksAt_state _ 0 { st with renderData := renderLine l } plugins st1 hr
        have := ih st1 hm
        exact ⟨this.1, by rw [this.2, hstate]⟩
      split at hmem
      · simp only [List.mem_append] at hmem
        rcases hmem with hmem | hmem
        · exact hfirst hmem
        · exact hrest hmem
      · simp only [List.mem_append] at hmem
        rcases hmem with hmem | hmem
        · exact hfirst hmem
        · exact hrest hmem

theorem runLineLoop_readonly (plugins : List Plugin) (ls : List Line) (st : EngineSt)
    (st' : EngineSt) (asts : List HastNode) (hs : st.codeBlock.state = readonlyState)
    (hok : (runLineLoop plugins ls st).1 = .ok (st', asts)) :
    st'.codeBlock = st.codeBlock := by
  induction ls generalizing st asts with
  | nil =>
    simp only [runLineLoop, Except.ok.injEq, Prod.mk.injEq] at hok
    rw [← hok.1]
  | cons l ls ih =>
    simp only [runLineLoop] at hok
    split at hok
    · simp at hok
    · next st1 hr =>
      have h1 : st1.codeBlock = st.codeBlock :=
        runHooksAt_readonly _ 0 { st with renderData := renderLine l } plugins st1 hs hr
      split at hok
      · simp at hok
      · next st2 asts2 hr2 =>
        simp only [Except.ok.injEq, Prod.mk.injEq] at hok
        obtain ⟨h2, -⟩ := hok
        rw [h2] at hr2
        rw [ih st1 asts2 (by rw [h1]; exact hs) hr2, h1]

theorem runLineLoop_count (plugins : List Plugin) (ls : List Line) (st : EngineSt)
    (st' : EngineSt) (asts : List HastNode)
    (hok : (runLineLoop plugins ls st).1 = .ok (st', asts)) (j : Nat) (p : Plugin)
    (hp : plugins[j]? = some p) :
    countCalls j .postprocessRenderedLine (runLineLoop plugins ls st).2 =
      ls.length * (if (p.hooks .postprocessRenderedLine).isSome then 1 else 0) := by
  induction ls generalizing st asts with
  | nil => simp [runLineLoop, countCalls]
  | cons l ls ih =>
    simp only [runLineLoop] at hok ⊢
    split at hok
    · simp at hok
    · next st1 hr =>
      split at hok
      · simp at hok
      · next st2 asts2 hr2 =>
        simp only [Except.ok.injEq, Prod.mk.injEq] at hok
        obtain ⟨h2, -⟩ := hok
        rw [h2] at hr2
        rw [countCalls_append]
        have hcell := runHooksAt_count _ 0 { st with renderData := renderLine l } plugins st1 hr j
        simp only [Nat.zero_add] at hcell
        rw [hcell, hp, ih st1 asts2 hr2]
        simp only [List.length_cons]
        ring

theorem runLineLoop_count_other (plugins : List Plugin) (ls : List Line) (st : EngineSt)
    (j : Nat) (h' : HookName) (hne : h' ≠ .postprocessRenderedLine) :
    countCalls j h' (runLineLoop plugins ls st).2 = 0 := by
  rw [countCalls, List.countP_eq_zero]
  intro a ha
  match a with
  | .call j' h'' s =>
    have := (runLineLoop_call_entries plugins ls st j' h'' s ha).1
    simp only [Bool.and_eq_true, decide_eq_true_eq]
    rintro ⟨rfl, rfl⟩
    exact hne this
  | .read _ _ _ _ => simp
  | .wrote _ _ _ => simp

theorem processBlock_ok_elim (plugins : List Plugin) (gs : DataStore) (b : CodeBlock)
    (res : CodeBlock × HastNode × DataStore)
    (hok : (processBlock plugins gs b).1 = .ok res) :
    ∃ (st1 st2 : EngineSt) (lineAsts : List HastNode) (st4 : EngineSt),
      (runStages plugins stageOrder (initSt gs b)).1 = .ok st1 ∧
      (runLineLoop plugins (lineSt st1).codeBlock.lines (lineSt st1)).1 = .ok (st2, lineAsts) ∧
      (runHooksAt .postprocessRenderedBlock 0 (blockSt st2 lineAsts) plugins).1 = .ok st4 ∧
      res = (st4.codeBlock, st4.renderData, st4.globalStore) ∧
      (processBlock plugins gs b).2 =
        (runStages plugins stageOrder (initSt gs b)).2 ++
          (runLineLoop plugins (lineSt st1).codeBlock.lines (lineSt st1)).2 ++
          (runHooksAt .postprocessRenderedBlock 0 (blockSt st2 lineAsts) plugins).2 := by
  simp only [processBlock] at hok
  split at hok
  · simp at hok
  · next st1 h1 =>
    split at hok
    · simp at hok
    · next st2 lineAsts h2 =>
      split at hok
      · simp at hok
      · next st4 h3 =>
        simp only [Except.ok.injEq] at hok
        refine ⟨st1, st2, lineAsts, st4, h1, h2, h3, hok.symm, ?_⟩
        simp only [processBlock, h1, h2, h3]

theorem processBlock_call_entries (plugins : List Plugin) (gs : DataStore) (b : CodeBlock)
    (j : Nat) (h' : HookName) (s : ProcessingState)
    (hmem : TraceEntry.call j h' s ∈ (processBlock plugins gs b).2) :
    s = stageState h' := by
  have hline : ∀ st1 : EngineSt, TraceEntry.call j h' s ∈
      (runLineLoop plugins (lineSt st1).codeBlock.lines (lineSt st1)).2 →
      s = stageState h' := by
    intro st1 hm
    have := runLineLoop_call_entries plugins _ _ j h' s hm
    rw [this.2, this.1]
    rfl
  have hblock : ∀ (st2 : EngineSt) (lineAsts : List HastNode), TraceEntry.call j h' s ∈
      (runHooksAt .postprocessRenderedBlock 0 (blockSt st2 lineAsts) plugins).2 →
      s = stageState h' := by
    intro st2 lineAsts hm
    have := runHooksAt_call_entries _ 0 (blockSt st2 lineAsts) plugins j h' s hm
    rw [this.2.1, this.1]
    rfl
  simp only [processBlock] at hmem
  split at hmem
  · exact runStages_call_entries plugins stageOrder _ j h' s hmem
  · next st1 h1 =>
    split at hmem
    · rcases List.mem_append.mp hmem with hm | hm
      · exact runStages_call_entries plugins stageOrder _ j h' s hm
      · exact hline st1 hm
    · next st2 lineAsts h2 =>
      split at hmem
      all_goals
        rcases List.mem_append.mp hmem with hm | hm
        · rcases List.mem_append.mp hm with hm2 | hm2
          · exact runStages_call_entries plugins stageOrder _ j h' s hm2
          · exact hline st1 hm2
        · exact hblock st2 lineAsts hm

theorem stageOrder_count_eq (h : HookName) (hne : h ≠ .postprocessRenderedLine) :
    stageOrder.count h + (if h = .postprocessRenderedBlock then 1 else 0) = 1 := by
  cases h <;> simp_all <;> decide

theorem stageOrder_count_line : stageOrder.count HookName.postprocessRenderedLine = 0 := by
  decide

theorem processBlock_counts (plugins : List Plugin) (gs : DataStore) (b : CodeBlock)
    (b' : CodeBlock) (ast : HastNode) (gs' : DataStore) (j : Nat) (p : Plugin)
    (hok : (processBlock plugins gs b).1 = .ok (b', ast, gs'))
    (hp : plugins[j]? = some p) :
    (∀ h : HookName, h ≠ .postprocessRenderedLine →
      countCalls j h (processBlock plugins gs b).2 = (if (p.hooks h).isSome then 1 else 0)) ∧
    countCalls j .postprocessRenderedLine (processBlock plugins gs b).2 =
      (if (p.hooks .postprocessRenderedLine).isSome then b'.lines.length else 0) := by
  obtain ⟨st1, st2, lineAsts, st4, h1, h2, h3, hres, htr⟩ :=
    processBlock_ok_elim plugins gs b _ hok
  simp only [Prod.mk.injEq] at hres
  obtain ⟨hb', -, -⟩ := hres
  have hreadL : (lineSt st1).codeBlock.state = readonlyState := rfl
  have h2block : st2.codeBlock = (lineSt st1).codeBlock :=
    runLineLoop_readonly plugins _ _ st2 lineAsts hreadL h2
  have hread3 : (blockSt st2 lineAsts).codeBlock.state = readonlyState := rfl
  have h4block : st4.codeBlock = (blockSt st2 lineAsts).codeBlock :=
    runHooksAt_readonly _ 0 _ plugins st4 hread3 h3
  have hlines : b'.lines = (lineSt st1).codeBlock.lines := by
    rw [hb', h4block]
    show (withState st2.codeBlock _).lines = _
    rw [withState]
    rw [h2block]
  rw [htr]
  constructor
  · intro h hne
    rw [countCalls_append, countCalls_append]
    rw [runStages_count plugins stageOrder _ st1 h1 j p hp h]
    rw [runLineLoop_count_other plugins _ _ j h hne]
    by_cases hbk : h = .postprocessRenderedBlock
    · subst hbk
      have hcnt := runHooksAt_count _ 0 (blockSt st2 lineAsts) plugins st4 h3 j
      simp only [Nat.zero_add] at hcnt
      rw [hcnt, hp]
      have hzero : stageOrder.count HookName.postprocessRenderedBlock = 0 := by decide
      rw [hzero]
      simp
    · rw [countCalls_other 0 _ h _ plugins j hbk]
      have hone : stageOrder.count h = 1 := by
        have := stageOrder_count_eq h hne
        rw [if_neg hbk] at this
        omega
      rw [hone]
      simp
  · rw [countCalls_append, countCalls_append]
    rw [runStages_count plugins stageOrder _ st1 h1 j p hp .postprocessRenderedLine]
    rw [stageOrder_count_line]
    rw [runLineLoop_count plugins _ _ st2 lineAsts h2 j p hp]
    rw [countCalls_other 0 _ _ _ plugins j (by decide)]
    rw [← hlines]
    by_cases hps : (p.hooks .postprocessRenderedLine).isSome
    · simp [hps]
    · simp [hps]

/-! ## Claim C1 -/

/-- C1: during every pipeline stage, the `ProcessingState` observed by every
hook invoked in that stage equals the documented permission triple exactly;
in particular `annotateCode` and `postprocessAnnotations` run with
canEditCode=false, canEditMetadata=false, canEditAnnotations=true, and
`postprocessRenderedLine` / `postprocessRenderedBlock` run with all three
permissions false. -/

theorem stagePermissions_observed :
    (∀ (plugins : List Plugin) (gs : DataStore) (b : CodeBlock) (j : Nat) (h : HookName)
      (s : ProcessingState), TraceEntry.call j h s ∈ (processBlock plugins gs b).2 →
      s = stageState h) ∧
    stageState .preprocessMetadata =
      { canEditMetadata := true, canEditCode := false, canEditAnnotations := true } ∧
    stageState .preprocessCode =
      { canEditMetadata := true, canEditCode := true, canEditAnnotations := true } ∧
    stageState .performSyntaxAnalysis =
      { canEditMetadata := true, canEditCode := true, canEditAnnotations := true } ∧
    stageState .postprocessAnalyzedCode =
      { canEditMetadata := true, canEditCode := true, canEditAnnotations := true } ∧
    stageState .annotateCode =
      { canEditMetadata := false, canEditCode := false, canEditAnnotations := true } ∧
    stageState .postprocessAnnotations =
      { canEditMetadata := false, canEditCode := false, canEditAnnotations := true } ∧
    stageState .postprocessRenderedLine =
      { canEditMetadata := false, canEditCode := false, canEditAnnotations := false } ∧
    stageState .postprocessRenderedBlock =
      { canEditMetadata := false, canEditCode := false, canEditAnnotations := false } :=
  ⟨fun plugins gs b j h s hmem => processBlock_call_entries plugins gs b j h s hmem,
    rfl, rfl, rfl, rfl, rfl, rfl, rfl, rfl⟩

/-- Witness for C1: a concrete `annotateCode` hook invocation is present in
the trace of a concrete run, and the theorem yields the documented triple for
it. -/

theorem stagePermissions_observed_witness :
    TraceEntry.call 0 .annotateCode
        { canEditMetadata := false, canEditCode := false, canEditAnnotations := true } ∈
      (processBlock [annotatePlugin] [] twoLineBlock).2 ∧
    ({ canEditMetadata := false, canEditCode := false, canEditAnnotations := true } :
        ProcessingState) = stageState .annotateCode :=
  ⟨by decide, stagePermissions_observed.1 [annotatePlugin] [] twoLineBlock 0 .annotateCode _
    (by decide)⟩

/-! ## Claim C3 -/

/-- C3: in a successful run, each per-block stage hook (`preprocessMetadata`,
`preprocessCode`, `performSyntaxAnalysis`, `postprocessAnalyzedCode`,
`annotateCode`, `postprocessAnnotations`, `postprocessRenderedBlock`) fires
exactly once per block per registered plugin implementing it (and zero times
for plugins not implementing it), and `postprocessRenderedLine` fires exactly
`lineCount` times per block per plugin implementing it (zero times for a
zero-line block). -/

theorem hook_call_multiplicity (plugins : List Plugin) (gs : DataStore) (b : CodeBlock)
    (b' : CodeBlock) (ast : HastNode) (gs' : DataStore) (j : Nat) (p : Plugin)
    (hok : (processBlock plugins gs b).1 = .ok (b', ast, gs'))
    (hp : plugins[j]? = some p) :
    (∀ h : HookName, h ≠ .postprocessRenderedLine →
      countCalls j h (processBlock plugins gs b).2 = (if (p.hooks h).isSome then 1 else 0)) ∧
    countCalls j .postprocessRenderedLine (processBlock plugins gs b).2 =
      (if (p.hooks .postprocessRenderedLine).isSome then b'.lines.length else 0) :=
  processBlock_counts plugins gs b b' ast gs' j p hok hp

/-- Witness for C3: a concrete two-line run where the per-line hook fires
twice and the `preprocessCode` hook fires once. -/

theorem hook_call_multiplicity_witness :
    (processBlock [lineCountPlugin] [] twoLineBlock).1 =
      .ok (okBlock ((processBlock [lineCountPlugin] [] twoLineBlock).1) twoLineBlock,
           okAst ((processBlock [lineCountPlugin] [] twoLineBlock).1),
           okGs ((processBlock [lineCountPlugin] [] twoLineBlock).1)) ∧
    ([lineCountPlugin][0]? = some lineCountPlugin) ∧
    countCalls 0 .postprocessRenderedLine (processBlock [lineCountPlugin] [] twoLineBlock).2 = 2 ∧
    countCalls 0 .preprocessCode (processBlock [lineCountPlugin] [] twoLineBlock).2 = 1 := by
  refine ⟨rfl, rfl, ?_, ?_⟩
  · have h := (hook_call_multiplicity [lineCountPlugin] [] twoLineBlock _ _ _ 0 lineCountPlugin
      rfl rfl).2
    exact h.trans (by decide)
  · have h := (hook_call_multiplicity [lineCountPlugin] [] twoLineBlock _ _ _ 0 lineCountPlugin
      rfl rfl).1 .preprocessCode (by decide)
    exact h.trans (by decide)

theorem code_of_split (b : CodeBlock) (c : String) :
    ({ b with lines := (splitLines c).map mkLine } : CodeBlock).code = c := by
  have hmaps : ∀ ls : List (List Char),
      ((ls.map strOfChars).map mkLine).map (fun l : Line => l.text.data) = ls := by
    intro ls
    induction ls with
    | nil => rfl
    | cons x xs ih =>
      simp only [List.map_cons]
      rw [ih]
      rfl
  show strOfChars (joinNl
    ((((splitChars c.data).map strOfChars).map mkLine).map (fun l : Line => l.text.data))) = c
  rw [hmaps, joinNl_splitChars]
  cases c
  rfl

/-! ## Claim C2 -/

/-- C2: every block mutator first consults the block's current processing
state: when the relevant permission is false the call fails with a
`PermissionDenied` condition (and, the model being purely functional, the
caller's block value is untouched); when it is true the mutation succeeds and
its effect is visible afterward, while unrelated properties are unchanged —
crossed with every stage's documented state. -/

theorem mutators_permission_gated (h : HookName) (b : CodeBlock) (hs : b.state = stageState h)
    (m l c t : String) (i li : Nat) (a : Annot) :
    ((stageState h).canEditMetadata = true →
      (∃ b', b.setMeta m = .ok b' ∧ b'.meta = m ∧ b'.language = b.language ∧
        b'.lines = b.lines) ∧
      (∃ b', b.setLanguage l = .ok b' ∧ b'.language = l ∧ b'.meta = b.meta ∧
        b'.lines = b.lines)) ∧
    ((stageState h).canEditMetadata = false →
      (∃ msg, b.setMeta m = .error (.permissionDenied msg)) ∧
      (∃ msg, b.setLanguage l = .error (.permissionDenied msg))) ∧
    ((stageState h).canEditCode = true →
      (∃ b', b.setCode c = .ok b' ∧ b'.code = c ∧ b'.meta = b.meta ∧
        b'.language = b.language) ∧
      (∃ b', b.insertLine i t = .ok b' ∧ b'.lines = insertIdx b.lines i (mkLine t))) ∧
    ((stageState h).canEditCode = false →
      (∃ msg, b.setCode c = .error (.permissionDenied msg)) ∧
      (∃ msg, b.insertLine i t = .error (.permissionDenied msg))) ∧
    ((stageState h).canEditAnnotations = true →
      ∃ b', b.addAnnot li a = .ok b' ∧
        b'.lines = updateAt b.lines li (fun ln => { ln with annots := ln.annots ++ [a] })) ∧
    ((stageState h).canEditAnnotations = false →
      ∃ msg, b.addAnnot li a = .error (.permissionDenied msg)) := by
  refine ⟨fun hp => ?_, fun hp => ?_, fun hp => ?_, fun hp => ?_, fun hp => ?_, fun hp => ?_⟩ <;>
    rw [← hs] at hp
  · exact ⟨⟨{ b with meta := m }, by simp [CodeBlock.setMeta, hp], rfl, rfl, rfl⟩,
      ⟨{ b with language := l }, by simp [CodeBlock.setLanguage, hp], rfl, rfl, rfl⟩⟩
  · exact ⟨⟨("Cannot edit metadata of code block"), by simp [CodeBlock.setMeta, hp]⟩,
      ⟨("Cannot edit metadata of code block"), by simp [CodeBlock.setLanguage, hp]⟩⟩
  · exact ⟨⟨{ b with lines := (splitLines c).map mkLine },
        by simp [CodeBlock.setCode, hp], code_of_split b c, rfl, rfl⟩,
      ⟨{ b with lines := insertIdx b.lines i (mkLine t) },
        by simp [CodeBlock.insertLine, hp], rfl⟩⟩
  · exact ⟨⟨("Cannot edit code of code block"), by simp [CodeBlock.setCode, hp]⟩,
      ⟨("Cannot edit code of code block"), by simp [CodeBlock.insertLine, hp]⟩⟩
  · exact ⟨{ b with lines := updateAt b.lines li (fun ln => { ln with annots := ln.annots ++ [a] }) }, by simp [CodeBlock.addAnnot, hp], rfl⟩
  · exact ⟨("Cannot edit annotations of code block"), by simp [CodeBlock.addAnnot, hp]⟩

/-- Witness for C2: during `annotateCode` (code frozen, annotations open), a
code edit is refused with `PermissionDenied` and an annotation is attached
successfully. -/

theorem mutators_permission_gated_witness :
    (withState twoLineBlock (stageState .annotateCode)).state = stageState .annotateCode ∧
    (∃ msg, (withState twoLineBlock (stageState .annotateCode)).setCode ("x") =
      .error (.permissionDenied msg)) ∧
    (∃ b', (withState twoLineBlock (stageState .annotateCode)).addAnnot 0 delAnnot = .ok b' ∧
      b'.lines = updateAt (withState twoLineBlock (stageState .annotateCode)).lines 0
        (fun ln => { ln with annots := ln.annots ++ [delAnnot] })) := by
  have hthm := mutators_permission_gated .annotateCode
    (withState twoLineBlock (stageState .annotateCode)) rfl ("m") ("l") ("x") ("t") 0 0 delAnnot
  exact ⟨rfl, (hthm.2.2.2.1 rfl).1, hthm.2.2.2.2.1 rfl⟩

/-! ## Claim C4 -/

/-- C4: rendering a line folds over its annotations: the base node wraps the
raw line text, each annotation's render capability is applied in insertion
order (each receiving the previous result, so the first-added annotation is
innermost); for the standard two-line input with a `del` annotation spanning
"two " on line 2, the rendered block serializes to the documented HTML. -/

theorem renderLine_fold_nesting :
    (∀ t : String, renderLine { text := t, annots := [] } =
      HastNode.element ("div") [] [HastNode.text t]) ∧
    (∀ (t : String) (as : List Annot) (a : Annot),
      renderLine { text := t, annots := as ++ [a] } =
        a.render (renderLine { text := t, annots := as })) ∧
    (okAst ((processBlock [delPlugin] [] twoLineBlock).1)).toHtml =
      "<pre><code><div>Example code...</div><div>...with <del>two </del>lines!</div></code></pre>" := by
  refine ⟨fun t => rfl, fun t as a => ?_, by decide⟩
  simp [renderLine, List.foldl_append]

/-! ## Claim C5 -/

/-- C5: for every plugin identity, scope and lifetime window, the first
`getPluginData` call stores the supplied default and returns it; a subsequent
call returns the same stored container and leaves the store untouched,
ignoring its own default argument; and a mutation of the container is seen by
later calls. -/

theorem getPluginData_first_call_stores (scope : Scope) (pid : Nat) (d d2 v : PValue)
    (st : EngineSt) (hfresh : lookupScoped scope st pid = none) :
    (getPluginData pid scope d st).1 = d ∧
    lookupScoped scope (getPluginData pid scope d st).2 pid = some d ∧
    getPluginData pid scope d2 ((getPluginData pid scope d st).2) =
      (d, (getPluginData pid scope d st).2) ∧
    (getPluginData pid scope d2 (setPluginData pid scope v ((getPluginData pid scope d st).2))).1 = v := by
  cases scope <;>
    simp_all [lookupScoped, getPluginData, getOrInit, setPluginData, storeData, lookupData]

/-- Witness for C5: concrete first/second/post-mutation reads in a fresh
block-scope window. -/

theorem getPluginData_first_call_stores_witness :
    lookupScoped .block (initSt [] twoLineBlock) 0 = none ∧
    (getPluginData 0 .block [("counter", 0)] (initSt [] twoLineBlock)).1 = [("counter", 0)] ∧
    (getPluginData 0 .block [("x", 9)]
      (setPluginData 0 .block [("counter", 1)]
        ((getPluginData 0 .block [("counter", 0)] (initSt [] twoLineBlock)).2))).1 =
      [("counter", 1)] := by
  have hthm := getPluginData_first_call_stores .block 0 [("counter", 0)] [("x", 9)]
    [("counter", 1)] (initSt [] twoLineBlock) rfl
  exact ⟨rfl, hthm.1, hthm.2.2.2⟩

/-! ## Claim C9 -/

theorem validateEntries_err (xs : List JsValue) (x : JsValue) (hx : x ∈ xs)
    (hv : validEntry x = none) :
    validateEntries xs = .error (.validationError ("Invalid entry in input array")) := by
  induction xs with
  | nil => simp at hx
  | cons y ys ih =>
    rcases List.mem_cons.mp hx with rfl | hmem
    · simp only [validateEntries, hv]
    · simp only [validateEntries]
      match hy : validEntry y with
      | none => rfl
      | some b => rw [ih hmem]

/-- C9: invalid input to the entry operation — a non-sequence non-descriptor
value, a sequence containing a non-descriptor entry, or an object missing one
of the required `code`/`language`/`meta` fields — fails validation, and the
entry operation then returns the validation error with an empty trace (no
plugin hook invoked) and the engine unchanged (no partial state). -/

theorem invalid_input_rejected_before_hooks :
    (∀ (e : Engine) (v : JsValue) (err : EcError), validateInput v = .error err →
      e.process v = (.error err, e, [])) ∧
    validateInput .nullVal = .error (.validationError ("Invalid input")) ∧
    validateInput .undef = .error (.validationError ("Invalid input")) ∧
    (∀ n : Int, validateInput (.num n) = .error (.validationError ("Invalid input"))) ∧
    (∀ sv : String, validateInput (.str sv) = .error (.validationError ("Invalid input"))) ∧
    (∀ bv : Bool, validateInput (.boolVal bv) = .error (.validationError ("Invalid input"))) ∧
    (∀ (xs : List JsValue) (x : JsValue), x ∈ xs → validEntry x = none →
      validateInput (.arr xs) = .error (.validationError ("Invalid entry in input array"))) ∧
    (∀ fs : List (String × JsValue),
      strField fs ("code") = none ∨ strField fs ("language") = none ∨
        strField fs ("meta") = none →
      validateInput (.obj fs) = .error (.validationError ("Invalid input"))) := by
  refine ⟨?_, rfl, rfl, fun n => rfl, fun sv => rfl, fun bv => rfl, ?_, ?_⟩
  · intro e v err hv
    rw [Engine.process, hv]
  · intro xs x hx hv
    exact validateEntries_err xs x hx hv
  · intro fs hmiss
    have hnone : validEntry (.obj fs) = none := by
      cases hc : strField fs ("code") <;> cases hl : strField fs ("language") <;>
        cases hm2 : strField fs ("meta") <;> simp_all [validEntry]
    rw [validateInput, hnone]
    intro xs hxs
    exact JsValue.noConfusion hxs

/-- Witness for C9: an object missing `language`/`meta` fails validation, and
the entry operation reports the error with no hooks run and the engine
untouched. -/

theorem invalid_input_rejected_before_hooks_witness :
    validateInput (.obj [("code", .str ("x"))]) =
      .error (.validationError ("Invalid input")) ∧
    (Engine.mk [annotatePlugin] []).process (.obj [("code", .str ("x"))]) =
      (.error (.validationError ("Invalid input")), Engine.mk [annotatePlugin] [], []) :=
  ⟨rfl, invalid_input_rejected_before_hooks.1 (Engine.mk [annotatePlugin] [])
    (.obj [("code", .str ("x"))]) (.validationError ("Invalid input")) rfl⟩

/-! ## Claim C10 -/

/-- C10: `getRenderer` creates the renderer at most once per module lifetime:
from the initial module state, any positive number of calls returns the same
renderer (the one stored by the first call) to every caller, with exactly one
`createRenderer()` invocation; and once a renderer is cached, any number of
further calls returns it and leaves the module state unchanged. -/

theorem getRenderer_cached_singleton :
    (∀ n : Nat, runGetRenderer (n + 1) initialRendererState =
      (List.replicate (n + 1) 0, { cachedRenderer := some 0, createCount := 1 })) ∧
    (∀ (n r c : Nat), runGetRenderer n { cachedRenderer := some r, createCount := c } =
      (List.replicate n r, { cachedRenderer := some r, createCount := c })) := by
  have hcached : ∀ (n r c : Nat), runGetRenderer n { cachedRenderer := some r, createCount := c } =
      (List.replicate n r, { cachedRenderer := some r, createCount := c }) := by
    intro n
    induction n with
    | zero => intro r c; rfl
    | succ n ih =>
      intro r c
      simp only [runGetRenderer, getRenderer, ih, List.replicate]
  refine ⟨fun n => ?_, hcached⟩
  simp only [runGetRenderer, initialRendererState, getRenderer, hcached, List.replicate]

theorem mapRenderPlugin_hooks_ne (h0 h : HookName) (f : HastNode → HastNode) (hne : h ≠ h0) :
    (mapRenderPlugin h0 f).hooks h = none := by
  simp [mapRenderPlugin, hne]

theorem runHooksAt_no_hooks (h : HookName) (i : Nat) (st : EngineSt) (ps : List Plugin)
    (hnone : ∀ p ∈ ps, p.hooks h = none) :
    runHooksAt h i st ps = (.ok st, []) := by
  induction ps generalizing i with
  | nil => rfl
  | cons p ps ih =>
    simp only [runHooksAt]
    rw [hnone p (List.mem_cons_self p ps)]
    exact ih (i + 1) (fun q hq => hnone q (List.mem_cons_of_mem p hq))

theorem runStages_no_hooks (ps : List Plugin) (hs : List HookName) (st : EngineSt)
    (hnone : ∀ p ∈ ps, ∀ h ∈ hs, p.hooks h = none) :
    runStages ps hs st = (.ok (applyStages hs st), []) := by
  induction hs generalizing st with
  | nil => rfl
  | cons h hs ih =>
    simp only [runStages, runBlockStage]
    rw [runHooksAt_no_hooks h 0 _ ps (fun p hp => hnone p hp h (List.mem_cons_self h hs))]
    simp only
    rw [ih _ (fun p hp h' hh' => hnone p hp h' (List.mem_cons_of_mem h hh'))]
    rfl

theorem runHooksAt_mapRender (h0 : HookName) (fs : List (HastNode → HastNode)) (i : Nat)
    (st : EngineSt) :
    (runHooksAt h0 i st (fs.map (mapRenderPlugin h0))).1 =
      .ok { st with renderData := foldApp fs st.renderData } := by
  induction fs generalizing i st with
  | nil => simp [runHooksAt, foldApp]
  | cons f fs ih =>
    simp only [List.map_cons, runHooksAt, mapRenderPlugin, if_pos]
    simp only [runHook]
    rw [ih (i + 1) { st with renderData := f st.renderData }]
    rfl

theorem runLineLoop_mapRender (fs : List (HastNode → HastNode)) (ls : List Line) (st : EngineSt) :
    ∃ stF : EngineSt,
      (runLineLoop (fs.map (mapRenderPlugin .postprocessRenderedLine)) ls st).1 =
        .ok (stF, ls.map (fun l => foldApp fs (renderLine l))) ∧
      stF.codeBlock = st.codeBlock := by
  induction ls generalizing st with
  | nil => exact ⟨st, rfl, rfl⟩
  | cons l ls ih =>
    simp only [runLineLoop]
    have hcell := runHooksAt_mapRender .postprocessRenderedLine fs 0
      { st with renderData := renderLine l }
    rw [hcell]
    dsimp only
    obtain ⟨stF, hF, hFb⟩ := ih { st with renderData := foldApp fs (renderLine l) }
    rw [hF]
    exact ⟨stF, rfl, hFb⟩

theorem runLineLoop_no_line_hooks (ps : List Plugin) (ls : List Line) (st : EngineSt)
    (hnone : ∀ p ∈ ps, p.hooks .postprocessRenderedLine = none) :
    ∃ stF : EngineSt,
      (runLineLoop ps ls st).1 = .ok (stF, ls.map renderLine) ∧
      stF.codeBlock = st.codeBlock ∧ stF.blockStore = st.blockStore ∧
      stF.globalStore = st.globalStore := by
  induction ls generalizing st with
  | nil => exact ⟨st, rfl, rfl, rfl, rfl⟩
  | cons l ls ih =>
    simp only [runLineLoop]
    rw [runHooksAt_no_hooks _ 0 _ ps hnone]
    dsimp only
    obtain ⟨stF, hF, h1, h2, h3⟩ := ih { st with renderData := renderLine l }
    rw [hF]
    exact ⟨stF, rfl, h1, h2, h3⟩

/-- C8: in the render post-processing stages, plugins run sequentially over
the shared render data: with plugins that each transform the line (resp.
block) node, every later plugin receives the previous plugin's (possibly
wholly replaced) node, the transformations compose in registration order, and
the final output is built from the last plugin's result. -/

theorem postprocess_sequential_visibility :
    (∀ (fs : List (HastNode → HastNode)) (gs : DataStore) (b : CodeBlock),
      blockAstOf (processBlock (fs.map (mapRenderPlugin .postprocessRenderedLine)) gs b).1 =
        some (renderBlock (b.lines.map (fun l => foldApp fs (renderLine l))))) ∧
    (∀ (fs : List (HastNode → HastNode)) (gs : DataStore) (b : CodeBlock),
      blockAstOf (processBlock (fs.map (mapRenderPlugin .postprocessRenderedBlock)) gs b).1 =
        some (foldApp fs (renderBlock (b.lines.map renderLine)))) := by
  constructor
  · intro fs gs b
    simp only [processBlock]
    rw [runStages_no_hooks _ stageOrder (initSt gs b) (by
      intro p hp h hh
      obtain ⟨f, -, rfl⟩ := List.mem_map.mp hp
      refine mapRenderPlugin_hooks_ne _ _ _ ?_
      intro heq
      rw [heq] at hh
      simp [stageOrder] at hh)]
    simp only
    obtain ⟨stF, hF, hFb⟩ := runLineLoop_mapRender fs
      (lineSt (applyStages stageOrder (initSt gs b))).codeBlock.lines
      (lineSt (applyStages stageOrder (initSt gs b)))
    rw [hF]
    simp only
    rw [runHooksAt_no_hooks _ 0 _ _ (by
      intro p hp
      obtain ⟨f, -, rfl⟩ := List.mem_map.mp hp
      exact mapRenderPlugin_hooks_ne _ _ _ (by intro hcon; exact HookName.noConfusion hcon))]
    simp only [blockAstOf, blockSt, Option.some.injEq]
    rfl
  · intro fs gs b
    simp only [processBlock]
    rw [runStages_no_hooks _ stageOrder (initSt gs b) (by
      intro p hp h hh
      obtain ⟨f, -, rfl⟩ := List.mem_map.mp hp
      refine mapRenderPlugin_hooks_ne _ _ _ ?_
      intro heq
      rw [heq] at hh
      simp [stageOrder] at hh)]
    simp only
    obtain ⟨stF, hF, h1, h2, h3⟩ := runLineLoop_no_line_hooks
      (fs.map (mapRenderPlugin .postprocessRenderedBlock))
      (lineSt (applyStages stageOrder (initSt gs b))).codeBlock.lines
      (lineSt (applyStages stageOrder (initSt gs b)))
      (by
        intro p hp
        obtain ⟨f, -, rfl⟩ := List.mem_map.mp hp
        exact mapRenderPlugin_hooks_ne _ _ _ (by intro hcon; exact HookName.noConfusion hcon))
    rw [hF]
    simp only
    rw [runHooksAt_mapRender .postprocessRenderedBlock fs 0]
    simp only [blockAstOf, blockSt, Option.some.injEq]
    rfl

/-! ## First-access lemmas for the plugin-data store -/

theorem lookupData_storeData_ne (store : DataStore) (p1 p2 : Nat) (v : PValue)
    (hne : p1 ≠ p2) : lookupData (storeData store p1 v) p2 = lookupData store p2 := by
  simp [storeData, lookupData, hne]

theorem lookupData_getOrInit_ne (store : DataStore) (p1 p2 : Nat) (d : PValue)
    (hne : p1 ≠ p2) : lookupData (getOrInit store p1 d).2 p2 = lookupData store p2 := by
  rw [getOrInit]
  cases lookupData store p1 <;> simp [lookupData, hne]

theorem getOrInit_fst (store : DataStore) (pid : Nat) (d : PValue) :
    (getOrInit store pid d).1 = (lookupData store pid).getD d := by
  rw [getOrInit]
  cases lookupData store pid <;> rfl

theorem getPluginData_fst (pid : Nat) (scope : Scope) (d : PValue) (st : EngineSt) :
    (getPluginData pid scope d st).1 = (lookupScoped scope st pid).getD d := by
  cases scope <;> simp [getPluginData, lookupScoped, getOrInit_fst]

theorem lookupScoped_getPluginData_ne (p1 pid : Nat) (sc scope : Scope) (d : PValue)
    (st : EngineSt) (hne : ¬(p1 = pid ∧ sc = scope)) :
    lookupScoped scope (getPluginData p1 sc d st).2 pid = lookupScoped scope st pid := by
  cases sc <;> cases scope <;>
    simp only [getPluginData, lookupScoped] <;>
    first
    | rfl
    | (apply lookupData_getOrInit_ne
       intro hp
       exact hne ⟨hp, rfl⟩)

theorem lookupScoped_setPluginData_ne (p1 pid : Nat) (sc scope : Scope) (v : PValue)
    (st : EngineSt) (hne : ¬(p1 = pid ∧ sc = scope)) :
    lookupScoped scope (setPluginData p1 sc v st) pid = lookupScoped scope st pid := by
  cases sc <;> cases scope <;>
    simp only [setPluginData, lookupScoped] <;>
    first
    | rfl
    | (apply lookupData_storeData_ne
       intro hp
       exact hne ⟨hp, rfl⟩)

theorem lookupScoped_codeBlock (scope : Scope) (st : EngineSt) (x : CodeBlock) (pid : Nat) :
    lookupScoped scope { st with codeBlock := x } pid = lookupScoped scope st pid := by
  cases scope <;> rfl

theorem lookupScoped_renderData (scope : Scope) (st : EngineSt) (n : HastNode) (pid : Nat) :
    lookupScoped scope { st with renderData := n } pid = lookupScoped scope st pid := by
  cases scope <;> rfl

theorem firstAccess_cons_call (pid : Nat) (scope : Scope) (j : Nat) (h : HookName)
    (st : ProcessingState) (tr : List TraceEntry) :
    firstAccess pid scope (.call j h st :: tr) = firstAccess pid scope tr := by
  rw [firstAccess, firstAccess, List.find?_cons_of_neg]
  simp [isAccess]

theorem firstAccess_append (pid : Nat) (scope : Scope) (t1 t2 : List TraceEntry) :
    firstAccess pid scope (t1 ++ t2) =
      (firstAccess pid scope t1).or (firstAccess pid scope t2) := by
  simp [firstAccess, List.find?_append]

theorem runHook_fa (pid' : Nat) (prog : HookProg) (st : EngineSt) (pid : Nat) (scope : Scope) :
    (∀ (d v : PValue),
      firstAccess pid scope (runHook pid' prog st).2 = some (.read pid scope d v) →
      v = (lookupScoped scope st pid).getD d) ∧
    (firstAccess pid scope (runHook pid' prog st).2 = none →
      ∀ st', (runHook pid' prog st).1 = .ok st' →
        lookupScoped scope st' pid = lookupScoped scope st pid) := by
  induction prog generalizing st with
  | done =>
    constructor
    · intro d v heq
      simp [firstAccess, runHook] at heq
    · intro _ st' hok
      simp only [runHook] at hok
      cases hok
      rfl
  | readBlock k ih =>
    simp only [runHook]
    exact ih st.codeBlock st
  | getData sc dflt k ih =>
    simp only [runHook]
    by_cases hacc : pid' = pid ∧ sc = scope
    · obtain ⟨rfl, rfl⟩ := hacc
      rw [firstAccess, List.find?_cons_of_pos _ (by simp [isAccess])]
      constructor
      · intro d v heq
        simp only [Option.some.injEq, TraceEntry.read.injEq] at heq
        rw [← heq.2.2.2, ← heq.2.2.1, getPluginData_fst]
      · intro hnone
        simp at hnone
    · rw [firstAccess, List.find?_cons_of_neg _ (by
        simp only [isAccess, Bool.and_eq_true, decide_eq_true_eq]
        intro hc
        exact hacc hc)]
      have hpres : lookupScoped scope (getPluginData pid' sc dflt st).2 pid =
          lookupScoped scope st pid :=
        lookupScoped_getPluginData_ne pid' pid sc scope dflt st hacc
      have hih := ih (getPluginData pid' sc dflt st).1 (getPluginData pid' sc dflt st).2
      constructor
      · intro d v heq
        rw [hih.1 d v heq, hpres]
      · intro hnone st' hok
        rw [hih.2 hnone st' hok, hpres]
  | setData sc v' k ih =>
    simp only [runHook]
    by_cases hacc : pid' = pid ∧ sc = scope
    · obtain ⟨rfl, rfl⟩ := hacc
      rw [firstAccess, List.find?_cons_of_pos _ (by simp [isAccess])]
      constructor
      · intro d v heq
        simp at heq
      · intro hnone
        simp at hnone
    · rw [firstAccess, List.find?_cons_of_neg _ (by
        simp only [isAccess, Bool.and_eq_true, decide_eq_true_eq]
        intro hc
        exact hacc hc)]
      have hpres : lookupScoped scope (setPluginData pid' sc v' st) pid =
          lookupScoped scope st pid :=
        lookupScoped_setPluginData_ne pid' pid sc scope v' st hacc
      have hih := ih (setPluginData pid' sc v' st)
      constructor
      · intro d v heq
        rw [hih.1 d v heq, hpres]
      · intro hnone st' hok
        rw [hih.2 hnone st' hok, hpres]
  | mutate act k ih =>
    simp only [runHook]
    split
    · next b hb =>
      have hih := ih { st with codeBlock := b }
      constructor
      · intro d v heq
        rw [hih.1 d v heq, lookupScoped_codeBlock]
      · intro hnone st' hok
        rw [hih.2 hnone st' hok, lookupScoped_codeBlock]
    · constructor
      · intro d v heq
        simp [firstAccess] at heq
      · intro _ st' hok
        simp at hok
  | getRender k ih =>
    simp only [runHook]
    exact ih st.renderData st
  | setRender n k ih =>
    simp only [runHook]
    have hih := ih { st with renderData := n }
    constructor
    · intro d v heq
      rw [hih.1 d v heq, lookupScoped_renderData]
    · intro hnone st' hok
      rw [hih.2 hnone st' hok, lookupScoped_renderData]

theorem runHooksAt_fa (h : HookName) (i : Nat) (st : EngineSt) (ps : List Plugin)
    (pid : Nat) (scope : Scope) :
    (∀ (d v : PValue),
      firstAccess pid scope (runHooksAt h i st ps).2 = some (.read pid scope d v) →
      v = (lookupScoped scope st pid).getD d) ∧
    (firstAccess pid scope (runHooksAt h i st ps).2 = none →
      ∀ st', (runHooksAt h i st ps).1 = .ok st' →
        lookupScoped scope st' pid = lookupScoped scope st pid) := by
  induction ps generalizing i st with
  | nil =>
    constructor
    · intro d v heq
      simp [runHooksAt, firstAccess] at heq
    · intro _ st' hok
      simp only [runHooksAt] at hok
      cases hok
      rfl
  | cons p ps ih =>
    simp only [runHooksAt]
    cases hp : p.hooks h with
    | none =>
      dsimp only
      exact ih (i + 1) st
    | some prog =>
      dsimp only
      have hH := runHook_fa i prog st pid scope
      cases hr : (runHook i prog st).1 with
      | error e =>
        dsimp only
        rw [firstAccess_cons_call]
        constructor
        · intro d v heq
          exact hH.1 d v heq
        · intro hnone st' hok
          simp at hok
      | ok st1 =>
        dsimp only
        rw [firstAccess_cons_call, firstAccess_append]
        have hT := ih (i + 1) st1
        constructor
        · intro d v heq
          cases hfa : firstAccess pid scope (runHook i prog st).2 with
          | some e2 =>
            rw [hfa, Option.or_some] at heq
            rw [heq] at hfa
            exact hH.1 d v hfa
          | none =>
            rw [hfa, Option.none_or] at heq
            have hpres := hH.2 hfa st1 hr
            rw [hT.1 d v heq, hpres]
        · intro hnone st' hok
          cases hfa : firstAccess pid scope (runHook i prog st).2 with
          | some e2 =>
            rw [hfa, Option.or_some] at hnone
            exact absurd hnone (by simp)
          | none =>
            rw [hfa, Option.none_or] at hnone
            have hpres := hH.2 hfa st1 hr
            rw [hT.2 hnone st' hok, hpres]

theorem runStages_fa (plugins : List Plugin) (hs : List HookName) (st : EngineSt)
    (pid : Nat) (scope : Scope) :
    (∀ (d v : PValue),
      firstAccess pid scope (runStages plugins hs st).2 = some (.read pid scope d v) →
      v = (lookupScoped scope st pid).getD d) ∧
    (firstAccess pid scope (runStages plugins hs st).2 = none →
      ∀ st', (runStages plugins hs st).1 = .ok st' →
        lookupScoped scope st' pid = lookupScoped scope st pid) := by
  induction hs generalizing st with
  | nil =>
    constructor
    · intro d v heq
      simp [runStages, firstAccess] at heq
    · intro _ st' hok
      simp only [runStages] at hok
      cases hok
      rfl
  | cons h hs ih =>
    simp only [runStages, runBlockStage]
    have hH := runHooksAt_fa h 0 { st with codeBlock := withState st.codeBlock (stageState h) }
      plugins pid scope
    rw [lookupScoped_codeBlock] at hH
    cases hr : (runHooksAt h 0 { st with codeBlock := withState st.codeBlock (stageState h) }
        plugins).1 with
    | error e =>
      constructor
      · intro d v heq
        exact hH.1 d v heq
      · intro hnone st' hok
        simp at hok
    | ok st1 =>
      rw [firstAccess_append]
      have hT := ih st1
      constructor
      · intro d v heq
        cases hfa : firstAccess pid scope (runHooksAt h 0
            { st with codeBlock := withState st.codeBlock (stageState h) } plugins).2 with
        | some e2 =>
          rw [hfa, Option.or_some] at heq
          rw [heq] at hfa
          exact hH.1 d v hfa
        | none =>
          rw [hfa, Option.none_or] at heq
          have hpres := hH.2 hfa st1 hr
          rw [hT.1 d v heq, hpres]
      · intro hnone st' hok
        cases hfa : firstAccess pid scope (runHooksAt h 0
            { st with codeBlock := withState st.codeBlock (stageState h) } plugins).2 with
        | some e2 =>
          rw [hfa, Option.or_some] at hnone
          exact absurd hnone (by simp)
        | none =>
          rw [hfa, Option.none_or] at hnone
          have hpres := hH.2 hfa st1 hr
          rw [hT.2 hnone st' hok, hpres]

theorem runLineLoop_fa (plugins : List Plugin) (ls : List Line) (st : EngineSt)
    (pid : Nat) (scope : Scope) :
    (∀ (d v : PValue),
      firstAccess pid scope (runLineLoop plugins ls st).2 = some (.read pid scope d v) →
      v = (lookupScoped scope st pid).getD d) ∧
    (firstAccess pid scope (runLineLoop plugins ls st).2 = none →
      ∀ st' asts, (runLineLoop plugins ls st).1 = .ok (st', asts) →
        lookupScoped scope st' pid = lookupScoped scope st pid) := by
  induction ls generalizing st with
  | nil =>
    constructor
    · intro d v heq
      simp [runLineLoop, firstAccess] at heq
    · intro _ st' asts hok
      simp only [runLineLoop, Except.ok.injEq, Prod.mk.injEq] at hok
      rw [← hok.1]
  | cons l ls ih =>
    simp only [runLineLoop]
    have hH := runHooksAt_fa .postprocessRenderedLine 0 { st with renderData := renderLine l }
      plugins pid scope
    rw [lookupScoped_renderData] at hH
    cases hr : (runHooksAt .postprocessRenderedLine 0 { st with renderData := renderLine l }
        plugins).1 with
    | error e =>
      dsimp only
      constructor
      · intro d v heq
        exact hH.1 d v heq
      · intro hnone st' asts hok
        simp at hok
    | ok st1 =>
      dsimp only
      have hT := ih st1
      cases hr2 : (runLineLoop plugins ls st1).1 with
      | error e =>
        dsimp only
        rw [firstAccess_append]
        constructor
        · intro d v heq
          cases hfa : firstAccess pid scope (runHooksAt .postprocessRenderedLine 0
              { st with renderData := renderLine l } plugins).2 with
          | some e2 =>
            rw [hfa, Option.or_some] at heq
            rw [heq] at hfa
            exact hH.1 d v hfa
          | none =>
            rw [hfa, Option.none_or] at heq
            have hpres := hH.2 hfa st1 hr
            rw [hT.1 d v heq, hpres]
        · intro hnone st' asts hok
          simp at hok
      | ok pr =>
        obtain ⟨st2, asts2⟩ := pr
        dsimp only
        rw [firstAccess_append]
        constructor
        · intro d v heq
          cases hfa : firstAccess pid scope (runHooksAt .postprocessRenderedLine 0
              { st with renderData := renderLine l } plugins).2 with
          | some e2 =>
            rw [hfa, Option.or_some] at heq
            rw [heq] at hfa
            exact hH.1 d v hfa
          | none =>
            rw [hfa, Option.none_or] at heq
            have hpres := hH.2 hfa st1 hr
            rw [hT.1 d v heq, hpres]
        · intro hnone st' asts hok
          cases hfa : firstAccess pid scope (runHooksAt .postprocessRenderedLine 0
              { st with renderData := renderLine l } plugins).2 with
          | some e2 =>
            rw [hfa, Option.or_some] at hnone
            exact absurd hnone (by simp)
          | none =>
            rw [hfa, Option.none_or] at hnone
            have hpres := hH.2 hfa st1 hr
            simp only [Except.ok.injEq, Prod.mk.injEq] at hok
            have := hT.2 hnone st2 asts2 hr2
            rw [← hok.1, this, hpres]

theorem lookupScoped_lineSt (scope : Scope) (st : EngineSt) (pid : Nat) :
    lookupScoped scope (lineSt st) pid = lookupScoped scope st pid := by
  cases scope <;> rfl

theorem lookupScoped_blockSt (scope : Scope) (st : EngineSt) (lineAsts : List HastNode)
    (pid : Nat) :
    lookupScoped scope (blockSt st lineAsts) pid = lookupScoped scope st pid := by
  cases scope <;> rfl

theorem processBlock_fa_first (plugins : List Plugin) (gs : DataStore) (b : CodeBlock)
    (res : CodeBlock × HastNode × DataStore)
    (hok : (processBlock plugins gs b).1 = .ok res) (pid : Nat) (scope : Scope)
    (d v : PValue)
    (heq : firstAccess pid scope (processBlock plugins gs b).2 = some (.read pid scope d v)) :
    v = (lookupScoped scope (initSt gs b) pid).getD d := by
  obtain ⟨st1, st2, lineAsts, st4, h1, h2, h3, -, htr⟩ := processBlock_ok_elim plugins gs b res hok
  rw [htr, firstAccess_append, firstAccess_append] at heq
  have hS := runStages_fa plugins stageOrder (initSt gs b) pid scope
  have hL := runLineLoop_fa plugins (lineSt st1).codeBlock.lines (lineSt st1) pid scope
  rw [lookupScoped_lineSt] at hL
  have hB := runHooksAt_fa .postprocessRenderedBlock 0 (blockSt st2 lineAsts) plugins pid scope
  rw [lookupScoped_blockSt] at hB
  cases hfa1 : firstAccess pid scope (runStages plugins stageOrder (initSt gs b)).2 with
  | some e1 =>
    rw [hfa1, Option.or_some, Option.or_some] at heq
    rw [heq] at hfa1
    exact hS.1 d v hfa1
  | none =>
    rw [hfa1, Option.none_or] at heq
    have hpres1 := hS.2 hfa1 st1 h1
    cases hfa2 : firstAccess pid scope
        (runLineLoop plugins (lineSt st1).codeBlock.lines (lineSt st1)).2 with
    | some e2 =>
      rw [hfa2, Option.or_some] at heq
      rw [heq] at hfa2
      rw [hL.1 d v hfa2, hpres1]
    | none =>
      rw [hfa2, Option.none_or] at heq
      have hpres2 := hL.2 hfa2 st2 lineAsts h2
      rw [hB.1 d v heq, hpres2, hpres1]

theorem processBlock_fa_pres (plugins : List Plugin) (gs : DataStore) (b : CodeBlock)
    (res : CodeBlock × HastNode × DataStore)
    (hok : (processBlock plugins gs b).1 = .ok res) (pid : Nat)
    (hnone : firstAccess pid .global (processBlock plugins gs b).2 = none) :
    lookupData res.2.2 pid = lookupData gs pid := by
  obtain ⟨st1, st2, lineAsts, st4, h1, h2, h3, hres, htr⟩ :=
    processBlock_ok_elim plugins gs b res hok
  rw [htr, firstAccess_append, firstAccess_append] at hnone
  have hS := runStages_fa plugins stageOrder (initSt gs b) pid .global
  have hL := runLineLoop_fa plugins (lineSt st1).codeBlock.lines (lineSt st1) pid .global
  rw [lookupScoped_lineSt] at hL
  have hB := runHooksAt_fa .postprocessRenderedBlock 0 (blockSt st2 lineAsts) plugins pid .global
  rw [lookupScoped_blockSt] at hB
  cases hfa1 : firstAccess pid .global (runStages plugins stageOrder (initSt gs b)).2 with
  | some e1 =>
    rw [hfa1, Option.or_some, Option.or_some] at hnone
    exact absurd hnone (by simp)
  | none =>
    rw [hfa1, Option.none_or] at hnone
    have hpres1 := hS.2 hfa1 st1 h1
    cases hfa2 : firstAccess pid .global
        (runLineLoop plugins (lineSt st1).codeBlock.lines (lineSt st1)).2 with
    | some e2 =>
      rw [hfa2, Option.or_some] at hnone
      exact absurd hnone (by simp)
    | none =>
      rw [hfa2, Option.none_or] at hnone
      have hpres2 := hL.2 hfa2 st2 lineAsts h2
      have hpres3 := hB.2 hnone st4 h3
      rw [hres]
      show lookupData st4.globalStore pid = lookupData gs pid
      have hfin : lookupScoped .global st4 pid = lookupScoped .global (initSt gs b) pid := by
        rw [hpres3, hpres2, hpres1]
      exact hfin

theorem processBlocks_fa_first (plugins : List Plugin) (gs : DataStore) (bs : List CodeBlock)
    (results : List (CodeBlock × HastNode))
    (hok : (processBlocks plugins gs bs).1 = .ok results) (pid : Nat) (d v : PValue)
    (heq : firstAccess pid .global (processBlocks plugins gs bs).2.2 =
      some (.read pid .global d v)) :
    v = (lookupData gs pid).getD d := by
  induction bs generalizing gs results with
  | nil => simp [processBlocks, firstAccess] at heq
  | cons b bs ih =>
    simp only [processBlocks] at hok heq
    cases hr : (processBlock plugins gs b).1 with
    | error e =>
      rw [hr] at hok heq
      simp at hok
    | ok res1 =>
      obtain ⟨b1, ast1, gs1⟩ := res1
      rw [hr] at hok heq
      dsimp only at hok heq
      cases hr2 : (processBlocks plugins gs1 bs).1 with
      | error e =>
        rw [hr2] at hok
        simp at hok
      | ok results2 =>
        rw [hr2] at hok heq
        dsimp only at hok heq
        rw [firstAccess_append] at heq
        cases hfa1 : firstAccess pid .global (processBlock plugins gs b).2 with
        | some e1 =>
          rw [hfa1, Option.or_some] at heq
          rw [heq] at hfa1
          have := processBlock_fa_first plugins gs b (b1, ast1, gs1) hr pid .global d v hfa1
          exact this
        | none =>
          rw [hfa1, Option.none_or] at heq
          have hpres := processBlock_fa_pres plugins gs b (b1, ast1, gs1) hr pid hfa1
          rw [ih gs1 results2 hr2 heq]
          simp only at hpres
          rw [hpres]

theorem process_fa_first (e : Engine) (input : JsValue)
    (results : List (CodeBlock × HastNode)) (hok : (e.process input).1 = .ok results)
    (pid : Nat) (d v : PValue)
    (heq : firstAccess pid .global (e.process input).2.2 = some (.read pid .global d v)) :
    v = (lookupData e.globalStore pid).getD d := by
  simp only [Engine.process] at hok heq
  cases hv : validateInput input with
  | error err =>
    rw [hv] at hok
    simp at hok
  | ok blocks =>
    rw [hv] at hok heq
    dsimp only at hok heq
    exact processBlocks_fa_first e.plugins e.globalStore blocks results hok pid d v heq

/-- C6: block-scoped plugin data is discarded and recreated empty at the
start of each block — whatever the global store holds, the first block-scoped
read by any plugin during a (successful) block run returns that plugin's own
supplied default; global-scoped data persists across repeated `process()`
calls on the same engine instance — a value stored in the engine returned by
one call is exactly what the first global read of that plugin sees during the
next call. -/

theorem blockData_reset_globalData_persists :
    (∀ (plugins : List Plugin) (gs : DataStore) (b : CodeBlock)
      (res : CodeBlock × HastNode × DataStore) (pid : Nat) (d v : PValue),
      (processBlock plugins gs b).1 = .ok res →
      firstAccess pid .block (processBlock plugins gs b).2 = some (.read pid .block d v) →
      v = d) ∧
    (∀ (e : Engine) (input input2 : JsValue) (results2 : List (CodeBlock × HastNode))
      (pid : Nat) (v d w : PValue),
      lookupData ((e.process input).2.1).globalStore pid = some v →
      (((e.process input).2.1).process input2).1 = .ok results2 →
      firstAccess pid .global (((e.process input).2.1).process input2).2.2 =
        some (.read pid .global d w) →
      w = v) := by
  constructor
  · intro plugins gs b res pid d v hok heq
    rw [processBlock_fa_first plugins gs b res hok pid .block d v heq]
    rfl
  · intro e input input2 results2 pid v d w hv hok heq
    rw [process_fa_first ((e.process input).2.1) input2 results2 hok pid d w heq, hv]
    rfl

/-- Witness for C6: the probe plugin's first block read yields its default in
a concrete run, and the counter written to the global store by one `process()`
call is read back by the first global read of the next call. -/

theorem blockData_reset_globalData_persists_witness :
    (processBlock [blockProbePlugin] [] twoLineBlock).1 =
      .ok (okBlock ((processBlock [blockProbePlugin] [] twoLineBlock).1) twoLineBlock,
           okAst ((processBlock [blockProbePlugin] [] twoLineBlock).1),
           okGs ((processBlock [blockProbePlugin] [] twoLineBlock).1)) ∧
    firstAccess 0 .block (processBlock [blockProbePlugin] [] twoLineBlock).2 =
      some (.read 0 .block [("c", 0)] [("c", 0)]) ∧
    lookupData ((counterEngine.process oneLineInput).2.1).globalStore 0 =
      some [("processedBlocks", 1)] ∧
    (((counterEngine.process oneLineInput).2.1).process oneLineInput).1 =
      .ok (okResults ((((counterEngine.process oneLineInput).2.1).process oneLineInput).1)) ∧
    firstAccess 0 .global ((((counterEngine.process oneLineInput).2.1).process oneLineInput)).2.2 =
      some (.read 0 .global [("processedBlocks", 0)] [("processedBlocks", 1)]) ∧
    ([("c", 0)] : PValue) = [("c", 0)] ∧
    ([("processedBlocks", 1)] : PValue) = [("processedBlocks", 1)] := by
  refine ⟨rfl, by decide, by decide, rfl, by decide, ?_, ?_⟩
  · exact blockData_reset_globalData_persists.1 [blockProbePlugin] [] twoLineBlock _ 0
      [("c", 0)] [("c", 0)] rfl (by decide)
  · exact blockData_reset_globalData_persists.2 counterEngine oneLineInput oneLineInput _ 0
      [("processedBlocks", 1)] [("processedBlocks", 0)] [("processedBlocks", 1)]
      (by decide) rfl (by decide)

/-- C7: plugin data is keyed by plugin identity: a write to one plugin's
entry never changes what another plugin's lookup sees (at either scope), and
in a (successful) block run a plugin whose global entry is absent receives
its own supplied default on its first read at either scope, regardless of
what any other plugin — even one with the same declared name — stored or
mutated. -/

theorem pluginData_isolated_by_identity :
    (∀ (store : DataStore) (p1 p2 : Nat) (v : PValue), p1 ≠ p2 →
      lookupData (storeData store p1 v) p2 = lookupData store p2) ∧
    (∀ (store : DataStore) (p1 p2 : Nat) (d : PValue), p1 ≠ p2 →
      lookupData (getOrInit store p1 d).2 p2 = lookupData store p2) ∧
    (∀ (plugins : List Plugin) (gs : DataStore) (b : CodeBlock)
      (res : CodeBlock × HastNode × DataStore) (pid : Nat) (scope : Scope) (d v : PValue),
      (processBlock plugins gs b).1 = .ok res →
      (scope = .global → lookupData gs pid = none) →
      firstAccess pid scope (processBlock plugins gs b).2 = some (.read pid scope d v) →
      v = d) := by
  refine ⟨lookupData_storeData_ne, lookupData_getOrInit_ne, ?_⟩
  intro plugins gs b res pid scope d v hok hfresh heq
  rw [processBlock_fa_first plugins gs b res hok pid scope d v heq]
  cases scope with
  | block => rfl
  | global =>
    show (lookupData gs pid).getD d = d
    rw [hfresh rfl]
    rfl

/-- Witness for C7: with two plugins of the same declared name, the second
plugin's first block-scoped read returns its own default (true) although the
first plugin stored false in its own container. -/

theorem pluginData_isolated_by_identity_witness :
    writerPlugin.name = readerPlugin.name ∧
    (processBlock [writerPlugin, readerPlugin] [] twoLineBlock).1 =
      .ok (okBlock ((processBlock [writerPlugin, readerPlugin] [] twoLineBlock).1) twoLineBlock,
           okAst ((processBlock [writerPlugin, readerPlugin] [] twoLineBlock).1),
           okGs ((processBlock [writerPlugin, readerPlugin] [] twoLineBlock).1)) ∧
    firstAccess 1 .block (processBlock [writerPlugin, readerPlugin] [] twoLineBlock).2 =
      some (.read 1 .block [("justInitialized", 1)] [("justInitialized", 1)]) ∧
    ([("justInitialized", 1)] : PValue) = [("justInitialized", 1)] := by
  refine ⟨rfl, rfl, by decide, ?_⟩
  exact pluginData_isolated_by_identity.2.2 [writerPlugin, readerPlugin] [] twoLineBlock _ 1
    .block [("justInitialized", 1)] [("justInitialized", 1)] rfl
    (fun hsc => Scope.noConfusion hsc) (by decide)

end ExpressiveCode
